import Mathlib

/-!
# SimpleVector: a shallow embedding of `simple_vector.h` and `array_ptr.h`

Modelling conventions.

* A heap array is a `List α` holding one value per allocated slot; the null
  pointer is `none`.  A position (`Type*` into the buffer) is the index
  `pos - begin()`.
* `size_t` values are natural numbers.  The doubling `capacity_ * 2` cannot wrap
  for a capacity that was really allocated, and `--size_` in `Erase` is only
  reached with `size_ > 0` inside the precondition of `Erase`.
* `new Type[n]` is the only operation that can fail.  Whether it succeeds is
  decided by an oracle `alloc : Nat → Bool`; when it fails `std::bad_alloc`
  leaves the function at that statement.  Each slot of a fresh array holds
  `default` (the default-constructed `Type`).
* A member function that mutates `*this` and may throw returns an `Outcome`:
  the returned value and the state after the call, or the exception and the
  state the object was in when the exception left the function.
* Moving an element is modelled as copying it, which is what the move of a
  scalar does; the unspecified value a class type leaves in a moved-from slot is
  not tracked.
* `PushBack` and `Insert` take their argument by reference (`const Type&` or
  `Type&&`).  The reference is bound either to an object outside the buffer or
  to an element of the vector the function is called on, as in
  `v.PushBack(v[0])`; the functions read through it at the statement where the
  source does, so after the writes and deletions that come before it.
* Accesses outside the allocated array are undefined in the source, and so is
  a range whose first position lies after its last one.  In the model such a
  read gives `default`, such a write is dropped and such a range is empty.
  No theorem below rests on these choices: each is stated for accesses that
  stay inside the array, or its conclusion does not depend on the value read.
-/

/-- The two exceptions the container can raise. -/
inductive Error where
  | bad_alloc
  | out_of_range
  deriving DecidableEq, Repr

/-- Result of a call of a mutating member function that may throw. -/
inductive Outcome (σ ρ : Type) where
  | returned (value : ρ) (state : σ)
  | thrown (e : Error) (state : σ)
  deriving DecidableEq, Repr

/-- State of the object after the call, whether it returned or threw. -/
def Outcome.state {σ ρ : Type} : Outcome σ ρ → σ
  | .returned _ s => s
  | .thrown _ s => s

/-- Sequencing of two calls on the same object: the second runs only when the
first returned. -/
def Outcome.andThen {σ ρ τ : Type} (o : Outcome σ ρ) (f : ρ → σ → Outcome σ τ) :
    Outcome σ τ :=
  match o with
  | .returned r s => f r s
  | .thrown e s => .thrown e s

/-! ## Standard algorithms used by the source, as the element-by-element loops -/

/-- Loop of `std::copy` / `std::move` between two different arrays:
`*d_first++ = *first++`, `n` times. -/
def copy_loop {α : Type} [Inhabited α] (src : List α) :
    Nat → Nat → Nat → List α → List α
  | 0, _, _, dst => dst
  | n + 1, first, d_first, dst =>
    copy_loop src n (first + 1) (d_first + 1) (dst.set d_first (src.getD first default))

/-- `std::move(first, last, d_first)` from array `src` into another array `dst`. -/
def std_move {α : Type} [Inhabited α] (src : List α) (first last : Nat) (dst : List α)
    (d_first : Nat) : List α :=
  copy_loop src (last - first) first d_first dst

/-- `std::copy(first, last, d_first)` from array `src` into another array `dst`. -/
def std_copy {α : Type} [Inhabited α] (src : List α) (first last : Nat) (dst : List α)
    (d_first : Nat) : List α :=
  copy_loop src (last - first) first d_first dst

/-- Loop of `std::move` when source and destination lie in the same array:
every read sees the writes made before it. -/
def shift_loop {α : Type} [Inhabited α] : Nat → Nat → Nat → List α → List α
  | 0, _, _, buf => buf
  | n + 1, first, d_first, buf =>
    shift_loop n (first + 1) (d_first + 1) (buf.set d_first (buf.getD first default))

/-- `std::move(first, last, d_first)` with all three positions in the array `buf`. -/
def std_move_within {α : Type} [Inhabited α] (buf : List α) (first last d_first : Nat) :
    List α :=
  shift_loop (last - first) first d_first buf

/-- Loop of `std::move_backward`: `*(--d_last) = *(--last)`, `n` times, in one array. -/
def backward_loop {α : Type} [Inhabited α] : Nat → Nat → Nat → List α → List α
  | 0, _, _, buf => buf
  | n + 1, last, d_last, buf =>
    backward_loop n (last - 1) (d_last - 1) (buf.set (d_last - 1) (buf.getD (last - 1) default))

/-- `std::move_backward(first, last, d_last)` with all three positions in `buf`. -/
def std_move_backward {α : Type} [Inhabited α] (buf : List α) (first last d_last : Nat) :
    List α :=
  backward_loop (last - first) last d_last buf

/-- Loop writing `value` into `n` consecutive slots from `first` on. -/
def fill_loop {α : Type} (value : α) : Nat → Nat → List α → List α
  | 0, _, buf => buf
  | n + 1, first, buf => fill_loop value n (first + 1) (buf.set first value)

/-- `std::fill(first, last, value)`; also the loop
`for (i = first; i < last; ++i) new (p + i) Type{}` with `value = Type{}`. -/
def std_fill {α : Type} (buf : List α) (first last : Nat) (value : α) : List α :=
  fill_loop value (last - first) first buf

/-- Loop of the three-iterator `std::equal(first1, last1, first2)`: it walks the
first range only and never looks at the end of the second one. -/
def equal_loop {α : Type} [Inhabited α] [DecidableEq α] (a b : List α) :
    Nat → Nat → Nat → Bool
  | 0, _, _ => true
  | n + 1, first1, first2 =>
    if a.getD first1 default = b.getD first2 default then
      equal_loop a b n (first1 + 1) (first2 + 1)
    else false

/-- `std::equal(first1, last1, first2)`, first range in `a`, second one in `b`. -/
def std_equal {α : Type} [Inhabited α] [DecidableEq α] (a : List α) (first1 last1 : Nat)
    (b : List α) (first2 : Nat) : Bool :=
  equal_loop a b (last1 - first1) first1 first2

/-- Loop of `std::lexicographical_compare(first1, last1, first2, last2)`:
`for (; first1 != last1 && first2 != last2; ++first1, ++first2)` returning `true` at
`*first1 < *first2` and `false` at `*first2 < *first1`, then
`return first1 == last1 && first2 != last2`.  The counter bounds the number of
iterations; with `last1 - first1` of them it is used up only when `first1 == last1`. -/
def lex_loop {α : Type} [Inhabited α] [LT α] [∀ x y : α, Decidable (x < y)] (a b : List α)
    (last1 last2 : Nat) : Nat → Nat → Nat → Bool
  | 0, first1, first2 => (first1 == last1) && (first2 != last2)
  | n + 1, first1, first2 =>
    if first1 ≠ last1 ∧ first2 ≠ last2 then
      if a.getD first1 default < b.getD first2 default then true
      else if b.getD first2 default < a.getD first1 default then false
      else lex_loop a b last1 last2 n (first1 + 1) (first2 + 1)
    else (first1 == last1) && (first2 != last2)

/-- `std::lexicographical_compare(first1, last1, first2, last2)`, first range in `a`,
second one in `b`. -/
def std_lexicographical_compare {α : Type} [Inhabited α] [LT α] [∀ x y : α, Decidable (x < y)]
    (a : List α) (first1 last1 : Nat) (b : List α) (first2 last2 : Nat) : Bool :=
  lex_loop a b last1 last2 (last1 - first1) first1 first2

/-! ## `ArrayPtr` -/

/-- `ArrayPtr<Type>`: the raw pointer, null or the address of a heap array. -/
structure ArrayPtr (α : Type) where
  raw_ptr_ : Option (List α)
  deriving DecidableEq, Repr

namespace ArrayPtr

variable {α : Type}

/-- `ArrayPtr()`: the null pointer. -/
def null : ArrayPtr α := ⟨none⟩

/-- `explicit ArrayPtr(size_t size)`: null when `size == 0`, else `new Type[size]`. -/
def ofSize [Inhabited α] (alloc : Nat → Bool) (size : Nat) : Except Error (ArrayPtr α) :=
  if size = 0 then .ok ⟨none⟩
  else if alloc size then .ok ⟨some (List.replicate size default)⟩
  else .error Error.bad_alloc

/-- The slots of the owned array; a null pointer owns none. -/
def cells (p : ArrayPtr α) : List α := p.raw_ptr_.getD []

/-- Number of slots of the owned array. -/
def slots (p : ArrayPtr α) : Nat := p.cells.length

/-- `operator[](index)` used as an rvalue. -/
def read [Inhabited α] (p : ArrayPtr α) (index : Nat) : α := p.cells.getD index default

/-- The pointer after the owned array went through `f` in place. -/
def onCells (p : ArrayPtr α) (f : List α → List α) : ArrayPtr α := ⟨p.raw_ptr_.map f⟩

/-- `operator[](index) = x`. -/
def write (p : ArrayPtr α) (index : Nat) (x : α) : ArrayPtr α :=
  p.onCells (fun b => b.set index x)

/-- `swap(other)`: the two raw pointers change places. -/
def swap (p other : ArrayPtr α) : ArrayPtr α × ArrayPtr α := (other, p)

/-- `ArrayPtr(ArrayPtr&& other)`: a null pointer swapped with `other`; gives the
new object and what is left in `other`. -/
def moveCtor (other : ArrayPtr α) : ArrayPtr α × ArrayPtr α := swap null other

/-- `operator=(ArrayPtr&& other)` on two different objects: `tmp` takes the
array of `other`, then swaps with `*this`; the old array dies with `tmp`.
Gives `*this` and `other` after the call. -/
def moveAssign (self other : ArrayPtr α) : ArrayPtr α × ArrayPtr α :=
  let (tmp, other1) := moveCtor other
  let (self1, _) := swap self tmp
  (self1, other1)

end ArrayPtr

/-- What a parameter of type `const Type&` or `Type&&` of `PushBack` and `Insert` is
bound to.

* `object x`: an object that is no element of the vector the function is called on; it
  holds `x` for the whole call.
* `element k dangling`: the element `items_[k]` of the vector the function is called on,
  as in `v.PushBack(v[k])`.  A read through the reference finds what slot `k` of the
  array holds at the time of the read.  Once that array has been deleted the read is
  undefined in the source; `dangling` stands for whatever it then yields. -/
inductive ItemRef (α : Type) where
  | object (x : α)
  | element (k : Nat) (dangling : α)
  deriving DecidableEq, Repr

/-- Read through the reference while the array `buf` of the vector is alive. -/
def ItemRef.read {α : Type} [Inhabited α] (r : ItemRef α) (buf : ArrayPtr α) : α :=
  match r with
  | .object x => x
  | .element k _ => buf.read k

/-- Read through the reference after the array it may point into has been deleted. -/
def ItemRef.readDeleted {α : Type} (r : ItemRef α) : α :=
  match r with
  | .object x => x
  | .element _ dangling => dangling

/-! ## `SimpleVector` -/

/-- `ReserveProxyObj`: carries the capacity asked for. -/
structure ReserveProxyObj where
  capacity_ : Nat
  deriving DecidableEq, Repr

/-- `ReserveProxyObj::GetCapacity`. -/
def ReserveProxyObj.GetCapacity (r : ReserveProxyObj) : Nat := r.capacity_

/-- Free function `Reserve(capacity_to_reserve)`. -/
def Reserve (capacity_to_reserve : Nat) : ReserveProxyObj := ⟨capacity_to_reserve⟩

/-- `SimpleVector<Type>`: the three data members. -/
structure SimpleVector (α : Type) where
  size_ : Nat
  capacity_ : Nat
  items_ : ArrayPtr α
  deriving DecidableEq, Repr

namespace SimpleVector

variable {α : Type}

/-- `SimpleVector() noexcept = default`. -/
def empty : SimpleVector α := ⟨0, 0, ArrayPtr.null⟩

/-- `explicit SimpleVector(const ReserveProxyObj&)`. -/
def ofReserve [Inhabited α] (alloc : Nat → Bool) (reserve_obj : ReserveProxyObj) :
    Except Error (SimpleVector α) :=
  match ArrayPtr.ofSize alloc reserve_obj.GetCapacity with
  | .error e => .error e
  | .ok items => .ok ⟨0, reserve_obj.GetCapacity, items⟩

/-- `SimpleVector(const SimpleVector& other)`. -/
def copyCtor [Inhabited α] (alloc : Nat → Bool) (other : SimpleVector α) :
    Except Error (SimpleVector α) :=
  match ArrayPtr.ofSize alloc other.capacity_ with
  | .error e => .error e
  | .ok items =>
    .ok ⟨other.size_, other.capacity_,
      items.onCells (fun t => std_copy other.items_.cells 0 other.size_ t 0)⟩

/-- `SimpleVector(SimpleVector&& other)`: the new object and what is left in `other`. -/
def moveCtor (other : SimpleVector α) : SimpleVector α × SimpleVector α :=
  let (items, other_items) := ArrayPtr.moveCtor other.items_
  (⟨other.size_, other.capacity_, items⟩, ⟨0, 0, other_items⟩)

/-- `swap(other)`: `*this` and `other` after the call. -/
def swap (self other : SimpleVector α) : SimpleVector α × SimpleVector α :=
  let (items, other_items) := ArrayPtr.swap self.items_ other.items_
  (⟨other.size_, other.capacity_, items⟩, ⟨self.size_, self.capacity_, other_items⟩)

/-- `operator=(const SimpleVector& rhs)` with `this != &rhs`: copy into `temp`,
then swap.  (With `this == &rhs` the call does nothing.) -/
def copyAssign [Inhabited α] (alloc : Nat → Bool) (self rhs : SimpleVector α) :
    Outcome (SimpleVector α) Unit :=
  match copyCtor alloc rhs with
  | .error e => .thrown e self
  | .ok temp => .returned () (swap self temp).1

/-- `operator=(SimpleVector&& rhs)` with `this != &rhs`: `*this` and `rhs` after
the call.  (With `this == &rhs` the call does nothing.) -/
def moveAssign (self rhs : SimpleVector α) : SimpleVector α × SimpleVector α :=
  let (items, rhs_items) := ArrayPtr.moveAssign self.items_ rhs.items_
  (⟨rhs.size_, rhs.capacity_, items⟩, ⟨0, 0, rhs_items⟩)

/-- `explicit SimpleVector(size_t size)`. -/
def ofSize [Inhabited α] (alloc : Nat → Bool) (size : Nat) : Except Error (SimpleVector α) :=
  match ArrayPtr.ofSize alloc size with
  | .error e => .error e
  | .ok items => .ok ⟨size, size, items.onCells (fun t => std_fill t 0 size default)⟩

/-- `SimpleVector(size_t size, const Type& value)`. -/
def ofSizeValue [Inhabited α] (alloc : Nat → Bool) (size : Nat) (value : α) :
    Except Error (SimpleVector α) :=
  match ArrayPtr.ofSize alloc size with
  | .error e => .error e
  | .ok items => .ok ⟨size, size, items.onCells (fun t => std_fill t 0 size value)⟩

/-- `SimpleVector(std::initializer_list<Type> init)`. -/
def ofList [Inhabited α] (alloc : Nat → Bool) (init : List α) : Except Error (SimpleVector α) :=
  match ArrayPtr.ofSize alloc init.length with
  | .error e => .error e
  | .ok items =>
    .ok ⟨init.length, init.length, items.onCells (fun t => std_copy init 0 init.length t 0)⟩

/-- `GetSize`. -/
def GetSize (v : SimpleVector α) : Nat := v.size_

/-- `GetCapacity`. -/
def GetCapacity (v : SimpleVector α) : Nat := v.capacity_

/-- `IsEmpty`. -/
def IsEmpty (v : SimpleVector α) : Bool := v.size_ == 0

/-- The live sequence: the values at indices `[0, size_)` of the buffer. -/
def live (v : SimpleVector α) : List α := v.items_.cells.take v.size_

/-- New capacity chosen by `PushBack` and `Insert` when the buffer is full:
`(capacity_ == 0) ? 1 : capacity_ * 2`. -/
def grown (capacity : Nat) : Nat := if capacity = 0 then 1 else capacity * 2

/-- `PushBack(const Type&)` and `PushBack(Type&&)`; the two bodies differ only
in how `item` is handed over.  `item` is read at `items_[size_] = item`: on the
growth path that is after the block in which `temp` took the old array in
`items_.swap(temp)` and deleted it on leaving the block. -/
def PushBack [Inhabited α] (alloc : Nat → Bool) (v : SimpleVector α) (item : ItemRef α) :
    Outcome (SimpleVector α) Unit :=
  if v.size_ = v.capacity_ then
    let new_capacity := grown v.capacity_
    match ArrayPtr.ofSize alloc new_capacity with
    | .error e => .thrown e v
    | .ok temp =>
      let temp := temp.onCells (fun t => std_move v.items_.cells 0 v.size_ t 0)
      .returned () ⟨v.size_ + 1, new_capacity, temp.write v.size_ item.readDeleted⟩
  else
    .returned () ⟨v.size_ + 1, v.capacity_, v.items_.write v.size_ (item.read v.items_)⟩

/-- `Insert(ConstIterator pos, const Type&)` and `Insert(ConstIterator pos, Type&&)`,
with `pos_index = pos - begin()`; returns the index of the returned iterator.
`value` is read at `temp[pos_index] = value` on the growth path, while the old array
is still owned by `items_`, and at `items_[pos_index] = value` on the other path,
after `std::move_backward` has shifted the elements of that same array. -/
def Insert [Inhabited α] (alloc : Nat → Bool) (v : SimpleVector α) (pos_index : Nat)
    (value : ItemRef α) : Outcome (SimpleVector α) Nat :=
  if v.size_ = v.capacity_ then
    let new_capacity := grown v.capacity_
    match ArrayPtr.ofSize alloc new_capacity with
    | .error e => .thrown e v
    | .ok temp =>
      let temp := temp.onCells (fun t => std_move v.items_.cells 0 pos_index t 0)
      let temp := temp.write pos_index (value.read v.items_)
      let temp := temp.onCells
        (fun t => std_move v.items_.cells pos_index v.size_ t (pos_index + 1))
      .returned pos_index ⟨v.size_ + 1, new_capacity, temp⟩
  else
    let items := v.items_.onCells (fun b => std_move_backward b pos_index v.size_ (v.size_ + 1))
    .returned pos_index ⟨v.size_ + 1, v.capacity_, items.write pos_index (value.read items)⟩

/-- `PopBack`. -/
def PopBack (v : SimpleVector α) : SimpleVector α :=
  if v.size_ = 0 then v else { v with size_ := v.size_ - 1 }

/-- `Erase(ConstIterator pos)` with `pos_index = pos - begin()`: the state after
the call and the index of the returned iterator. -/
def Erase [Inhabited α] (v : SimpleVector α) (pos_index : Nat) : SimpleVector α × Nat :=
  let items := v.items_.onCells (fun b => std_move_within b (pos_index + 1) v.size_ pos_index)
  (⟨v.size_ - 1, v.capacity_, items⟩, pos_index)

/-- `operator[](index)`: `none` stands for the failed `assert(index < size_)`. -/
def index [Inhabited α] (v : SimpleVector α) (i : Nat) : Option α :=
  if i < v.size_ then some (v.items_.read i) else none

/-- `At(index)`. -/
def At [Inhabited α] (v : SimpleVector α) (i : Nat) : Outcome (SimpleVector α) α :=
  if i ≥ v.size_ then .thrown Error.out_of_range v
  else .returned (v.items_.read i) v

/-- `Clear`. -/
def Clear (v : SimpleVector α) : SimpleVector α := { v with size_ := 0 }

/-- `Resize(new_size)`. -/
def Resize [Inhabited α] (alloc : Nat → Bool) (v : SimpleVector α) (new_size : Nat) :
    Outcome (SimpleVector α) Unit :=
  if new_size ≤ v.size_ then
    .returned () { v with size_ := new_size }
  else if new_size ≤ v.capacity_ then
    .returned ()
      ⟨new_size, v.capacity_, v.items_.onCells (fun b => std_fill b v.size_ new_size default)⟩
  else
    let new_capacity := max (v.capacity_ * 2) new_size
    match ArrayPtr.ofSize alloc new_capacity with
    | .error e => .thrown e v
    | .ok temp =>
      let temp := temp.onCells (fun t => std_move v.items_.cells 0 v.size_ t 0)
      let temp := temp.onCells (fun t => std_fill t v.size_ new_size default)
      .returned () ⟨new_size, new_capacity, temp⟩

/-- `Reserve(new_capacity)`. -/
def Reserve [Inhabited α] (alloc : Nat → Bool) (v : SimpleVector α) (new_capacity : Nat) :
    Outcome (SimpleVector α) Unit :=
  if new_capacity > v.capacity_ then
    match ArrayPtr.ofSize alloc new_capacity with
    | .error e => .thrown e v
    | .ok temp =>
      let temp := temp.onCells (fun t => std_move v.items_.cells 0 v.size_ t 0)
      .returned () ⟨v.size_, new_capacity, temp⟩
  else
    .returned () v

/-- `operator==(lhs, rhs)`: `std::equal(lhs.begin(), lhs.end(), rhs.begin())`. -/
def eq [Inhabited α] [DecidableEq α] (lhs rhs : SimpleVector α) : Bool :=
  std_equal lhs.items_.cells 0 lhs.size_ rhs.items_.cells 0

/-- `operator!=(lhs, rhs)`. -/
def ne [Inhabited α] [DecidableEq α] (lhs rhs : SimpleVector α) : Bool :=
  !(eq lhs rhs)

/-- `operator<(lhs, rhs)`:
`std::lexicographical_compare(lhs.begin(), lhs.end(), rhs.begin(), rhs.end())`. -/
def lt [Inhabited α] [LT α] [∀ x y : α, Decidable (x < y)] (lhs rhs : SimpleVector α) : Bool :=
  std_lexicographical_compare lhs.items_.cells 0 lhs.size_ rhs.items_.cells 0 rhs.size_

/-- `operator<=(lhs, rhs)`: `!(rhs < lhs)`. -/
def le [Inhabited α] [LT α] [∀ x y : α, Decidable (x < y)] (lhs rhs : SimpleVector α) : Bool :=
  !(lt rhs lhs)

/-- `operator>(lhs, rhs)`: `rhs < lhs`. -/
def gt [Inhabited α] [LT α] [∀ x y : α, Decidable (x < y)] (lhs rhs : SimpleVector α) : Bool :=
  lt rhs lhs

/-- `operator>=(lhs, rhs)`: `!(rhs > lhs)`. -/
def ge [Inhabited α] [LT α] [∀ x y : α, Decidable (x < y)] (lhs rhs : SimpleVector α) : Bool :=
  !(gt rhs lhs)

/-- The `PushBack` calls `PushBack(x)` for each `x` of `xs`, in order, on one object;
each `x` is an object that is no element of the vector. -/
def pushAll [Inhabited α] (alloc : Nat → Bool) (v : SimpleVector α) :
    List α → Outcome (SimpleVector α) Unit
  | [] => .returned () v
  | x :: xs => (PushBack alloc v (ItemRef.object x)).andThen (fun _ s => pushAll alloc s xs)

/-- Number of elements one `PushBack` call relocates: the length `end() - begin()` of the
range handed to `std::move(begin(), end(), temp.Get())` on the growth path, none on
the other path. -/
def PushBack_moves (v : SimpleVector α) : Nat :=
  if v.size_ = v.capacity_ then v.size_ - 0 else 0

/-- Number of elements relocated over the calls `PushBack(x)` for each `x` of `xs`, in
order, on one object; a call that throws has relocated nothing and ends the run. -/
def pushAll_moves [Inhabited α] (alloc : Nat → Bool) (v : SimpleVector α) : List α → Nat
  | [] => 0
  | x :: xs =>
    match PushBack alloc v (ItemRef.object x) with
    | .returned _ s => PushBack_moves v + pushAll_moves alloc s xs
    | .thrown _ _ => 0

/-- The class invariant: `size_ <= capacity_`, the buffer has `capacity_` slots, and a
zero capacity goes with the null pointer. -/
def Invariant (v : SimpleVector α) : Prop :=
  v.size_ ≤ v.capacity_ ∧ v.items_.slots = v.capacity_ ∧
    (v.capacity_ = 0 → v.items_.raw_ptr_ = none)

/-- Assignment through the reference returned by `operator[]` or `At`:
`v[index] = x` with `index < size_`. -/
def store (v : SimpleVector α) (i : Nat) (x : α) : SimpleVector α :=
  { v with items_ := v.items_.write i x }

/-- The states a `SimpleVector` object can be in: what a constructor gives, and
what a member function called within its precondition leaves, in the object it
is called on and in the object it takes as argument.  A call that throws leaves
the state it threw in.  `PushBack` and `Insert` are taken with every argument, the
elements of the vector itself included; a `PushBack` that reads its argument after
the array it refers to is deleted counts with whatever value that read yields. -/
inductive Reachable [Inhabited α] : SimpleVector α → Prop where
  | ctor_default : Reachable empty
  | ctor_reserve (alloc : Nat → Bool) (r : ReserveProxyObj) (v : SimpleVector α) :
      ofReserve alloc r = .ok v → Reachable v
  | ctor_copy (alloc : Nat → Bool) (other v : SimpleVector α) :
      Reachable other → copyCtor alloc other = .ok v → Reachable v
  | ctor_move (other : SimpleVector α) : Reachable other → Reachable (moveCtor other).1
  | ctor_move_source (other : SimpleVector α) : Reachable other → Reachable (moveCtor other).2
  | ctor_size (alloc : Nat → Bool) (size : Nat) (v : SimpleVector α) :
      ofSize alloc size = .ok v → Reachable v
  | ctor_size_value (alloc : Nat → Bool) (size : Nat) (value : α) (v : SimpleVector α) :
      ofSizeValue alloc size value = .ok v → Reachable v
  | ctor_list (alloc : Nat → Bool) (init : List α) (v : SimpleVector α) :
      ofList alloc init = .ok v → Reachable v
  | copy_assign (alloc : Nat → Bool) (self rhs : SimpleVector α) :
      Reachable self → Reachable rhs → Reachable (copyAssign alloc self rhs).state
  | move_assign (self rhs : SimpleVector α) :
      Reachable self → Reachable rhs → Reachable (moveAssign self rhs).1
  | move_assign_source (self rhs : SimpleVector α) :
      Reachable self → Reachable rhs → Reachable (moveAssign self rhs).2
  | push_back (alloc : Nat → Bool) (v : SimpleVector α) (item : ItemRef α) :
      Reachable v → Reachable (PushBack alloc v item).state
  | insert (alloc : Nat → Bool) (v : SimpleVector α) (pos_index : Nat) (value : ItemRef α) :
      Reachable v → pos_index ≤ v.size_ → Reachable (Insert alloc v pos_index value).state
  | pop_back (v : SimpleVector α) : Reachable v → Reachable (PopBack v)
  | erase (v : SimpleVector α) (pos_index : Nat) :
      Reachable v → pos_index < v.size_ → Reachable (Erase v pos_index).1
  | swap_self (self other : SimpleVector α) :
      Reachable self → Reachable other → Reachable (swap self other).1
  | swap_other (self other : SimpleVector α) :
      Reachable self → Reachable other → Reachable (swap self other).2
  | clear (v : SimpleVector α) : Reachable v → Reachable (Clear v)
  | resize (alloc : Nat → Bool) (v : SimpleVector α) (new_size : Nat) :
      Reachable v → Reachable (Resize alloc v new_size).state
  | reserve (alloc : Nat → Bool) (v : SimpleVector α) (new_capacity : Nat) :
      Reachable v → Reachable (Reserve alloc v new_capacity).state
  | store (v : SimpleVector α) (i : Nat) (x : α) :
      Reachable v → i < v.size_ → Reachable (store v i x)

end SimpleVector

/-! ## The loops, slot by slot -/

theorem copy_loop_length {α : Type} [Inhabited α] (src : List α) :
    ∀ (n first d : Nat) (dst : List α),
    (copy_loop src n first d dst).length = dst.length := by
  intro n
  induction n with
  | zero => intros; rfl
  | succ n ih => intro first d dst; simp [copy_loop, ih]

theorem copy_loop_getElem? {α : Type} [Inhabited α] (src : List α) :
    ∀ (n first d : Nat) (dst : List α) (i : Nat),
    (copy_loop src n first d dst)[i]? =
      if d ≤ i ∧ i < d + n ∧ i < dst.length then some (src.getD (first + (i - d)) default)
      else dst[i]? := by
  intro n
  induction n with
  | zero =>
    intro first d dst i
    have h : ¬ (d ≤ i ∧ i < d + 0 ∧ i < dst.length) := by omega
    simp only [copy_loop, if_neg h]
  | succ n ih =>
    intro first d dst i
    simp only [copy_loop, ih, List.length_set, List.getElem?_set]
    by_cases h1 : d = i
    · subst h1
      by_cases h2 : d < dst.length
      · simp [h2]
      · simp [h2]; omega
    · by_cases h2 : d + 1 ≤ i ∧ i < d + 1 + n ∧ i < dst.length
      · have h3 : d ≤ i ∧ i < d + (n + 1) ∧ i < dst.length := by omega
        have h4 : first + 1 + (i - (d + 1)) = first + (i - d) := by omega
        simp [h1, h2, h3, h4]
      · have h3 : ¬ (d ≤ i ∧ i < d + (n + 1) ∧ i < dst.length) := by omega
        simp [h1, h2, h3]

theorem shift_loop_length {α : Type} [Inhabited α] : ∀ (n first d : Nat) (buf : List α),
    (shift_loop n first d buf).length = buf.length := by
  intro n
  induction n with
  | zero => intros; rfl
  | succ n ih => intro first d buf; simp [shift_loop, ih]

theorem shift_loop_getElem? {α : Type} [Inhabited α] :
    ∀ (n first d : Nat) (buf : List α) (i : Nat), d ≤ first →
    (shift_loop n first d buf)[i]? =
      if d ≤ i ∧ i < d + n ∧ i < buf.length then some (buf.getD (first + (i - d)) default)
      else buf[i]? := by
  intro n
  induction n with
  | zero =>
    intro first d buf i _
    have h : ¬ (d ≤ i ∧ i < d + 0 ∧ i < buf.length) := by omega
    simp only [shift_loop, if_neg h]
  | succ n ih =>
    intro first d buf i hd
    simp only [shift_loop, ih (first + 1) (d + 1) _ i (by omega), List.length_set,
      List.getElem?_set]
    by_cases h1 : d = i
    · subst h1
      by_cases h2 : d < buf.length
      · simp [h2]
      · simp [h2]; omega
    · by_cases h2 : d + 1 ≤ i ∧ i < d + 1 + n ∧ i < buf.length
      · have h3 : d ≤ i ∧ i < d + (n + 1) ∧ i < buf.length := by omega
        have h4 : first + 1 + (i - (d + 1)) = first + (i - d) := by omega
        have h5 : ¬ d = first + (i - d) := by omega
        simp [h1, h2, h3, h4, h5, List.getD_eq_getElem?_getD, List.getElem?_set]
      · have h3 : ¬ (d ≤ i ∧ i < d + (n + 1) ∧ i < buf.length) := by omega
        simp [h1, h2, h3]

theorem backward_loop_length {α : Type} [Inhabited α] : ∀ (n last d : Nat) (buf : List α),
    (backward_loop n last d buf).length = buf.length := by
  intro n
  induction n with
  | zero => intros; rfl
  | succ n ih => intro last d buf; simp [backward_loop, ih]

theorem backward_loop_getElem? {α : Type} [Inhabited α] :
    ∀ (n last d : Nat) (buf : List α) (i : Nat),
    n ≤ last → last ≤ d →
    (backward_loop n last d buf)[i]? =
      if d - n ≤ i ∧ i < d ∧ i < buf.length then some (buf.getD (last - (d - i)) default)
      else buf[i]? := by
  intro n
  induction n with
  | zero =>
    intro last d buf i _ _
    have h : ¬ (d - 0 ≤ i ∧ i < d ∧ i < buf.length) := by omega
    simp only [backward_loop, if_neg h]
  | succ n ih =>
    intro last d buf i hn hd
    simp only [backward_loop, ih (last - 1) (d - 1) _ i (by omega) (by omega), List.length_set,
      List.getElem?_set]
    by_cases h1 : d - 1 = i
    · have h2 : ¬ (d - 1 - n ≤ i ∧ i < d - 1 ∧ i < buf.length) := by omega
      have h4 : last - (d - i) = last - 1 := by omega
      rw [if_neg h2, if_pos h1, h4]
      by_cases h5 : i < buf.length
      · have h3 : d - (n + 1) ≤ i ∧ i < d ∧ i < buf.length := by omega
        have h6 : d - 1 < buf.length := by omega
        rw [if_pos h3, if_pos h6]
      · have h3 : ¬ (d - (n + 1) ≤ i ∧ i < d ∧ i < buf.length) := by omega
        have h6 : ¬ d - 1 < buf.length := by omega
        rw [if_neg h3, if_neg h6, List.getElem?_eq_none (by omega)]
    · by_cases h2 : d - 1 - n ≤ i ∧ i < d - 1 ∧ i < buf.length
      · have h3 : d - (n + 1) ≤ i ∧ i < d ∧ i < buf.length := by omega
        have h4 : last - 1 - (d - 1 - i) = last - (d - i) := by omega
        have h5 : ¬ d - 1 = last - (d - i) := by omega
        rw [if_pos h2, if_pos h3, h4, List.getD_eq_getElem?_getD, List.getElem?_set, if_neg h5,
          List.getD_eq_getElem?_getD]
      · have h3 : ¬ (d - (n + 1) ≤ i ∧ i < d ∧ i < buf.length) := by omega
        rw [if_neg h2, if_neg h3, if_neg h1]

theorem fill_loop_length {α : Type} (value : α) : ∀ (n first : Nat) (buf : List α),
    (fill_loop value n first buf).length = buf.length := by
  intro n
  induction n with
  | zero => intros; rfl
  | succ n ih => intro first buf; simp [fill_loop, ih]

theorem fill_loop_getElem? {α : Type} (value : α) : ∀ (n first : Nat) (buf : List α) (i : Nat),
    (fill_loop value n first buf)[i]? =
      if first ≤ i ∧ i < first + n ∧ i < buf.length then some value else buf[i]? := by
  intro n
  induction n with
  | zero =>
    intro first buf i
    have h : ¬ (first ≤ i ∧ i < first + 0 ∧ i < buf.length) := by omega
    simp only [fill_loop, if_neg h]
  | succ n ih =>
    intro first buf i
    simp only [fill_loop, ih, List.length_set, List.getElem?_set]
    by_cases h1 : first = i
    · subst h1
      by_cases h2 : first < buf.length
      · simp [h2]
      · simp [h2]; omega
    · by_cases h2 : first + 1 ≤ i ∧ i < first + 1 + n ∧ i < buf.length
      · have h3 : first ≤ i ∧ i < first + (n + 1) ∧ i < buf.length := by omega
        simp [h1, h2, h3]
      · have h3 : ¬ (first ≤ i ∧ i < first + (n + 1) ∧ i < buf.length) := by omega
        simp [h1, h2, h3]

theorem equal_loop_iff {α : Type} [Inhabited α] [DecidableEq α] (a b : List α) :
    ∀ (n first1 first2 : Nat),
    equal_loop a b n first1 first2 = true ↔
      ∀ k, k < n → a.getD (first1 + k) default = b.getD (first2 + k) default := by
  intro n
  induction n with
  | zero => intro first1 first2; simp [equal_loop]
  | succ n ih =>
    intro first1 first2
    simp only [equal_loop]
    constructor
    · intro h k hk
      by_cases h0 : a.getD first1 default = b.getD first2 default
      · rw [if_pos h0] at h
        cases k with
        | zero => simpa using h0
        | succ k =>
          have := (ih (first1 + 1) (first2 + 1)).1 h k (by omega)
          have e1 : first1 + (k + 1) = first1 + 1 + k := by omega
          have e2 : first2 + (k + 1) = first2 + 1 + k := by omega
          rw [e1, e2]; exact this
      · rw [if_neg h0] at h; exact absurd h (by simp)
    · intro h
      have h0 : a.getD first1 default = b.getD first2 default := by simpa using h 0 (by omega)
      rw [if_pos h0]
      refine (ih (first1 + 1) (first2 + 1)).2 ?_
      intro k hk
      have := h (k + 1) (by omega)
      have e1 : first1 + (k + 1) = first1 + 1 + k := by omega
      have e2 : first2 + (k + 1) = first2 + 1 + k := by omega
      rw [e1, e2] at this; exact this

/-! ## Generic facts on lists and on `ArrayPtr` -/

theorem some_getD_of_lt {α : Type} (l : List α) (j : Nat) (d : α) (h : j < l.length) :
    some (l.getD j d) = l[j]? := by
  rw [List.getD_eq_getElem?_getD, List.getElem?_eq_getElem h]; rfl

theorem getElem?_take_cons_drop {α : Type} (l : List α) (i : Nat) (x : α) (hi : i ≤ l.length)
    (k : Nat) :
    (l.take i ++ x :: l.drop i)[k]? =
      if k < i then l[k]? else if k = i then some x else l[k - 1]? := by
  have hlen : (l.take i).length = i := by rw [List.length_take]; omega
  rw [List.getElem?_append, hlen]
  by_cases h1 : k < i
  · rw [if_pos h1, if_pos h1, List.getElem?_take_of_lt h1]
  · rw [if_neg h1, if_neg h1, List.getElem?_cons]
    by_cases h2 : k = i
    · have h3 : k - i = 0 := by omega
      rw [if_pos h3, if_pos h2]
    · have h3 : ¬ k - i = 0 := by omega
      have h4 : i + (k - i - 1) = k - 1 := by omega
      rw [if_neg h3, if_neg h2, List.getElem?_drop, h4]

theorem getElem?_take_drop_succ {α : Type} (l : List α) (i : Nat) (k : Nat) :
    (l.take i ++ l.drop (i + 1))[k]? = if k < i then l[k]? else l[k + 1]? := by
  rw [← List.eraseIdx_eq_take_drop_succ, List.getElem?_eraseIdx]

theorem getElem?_take_append_replicate {α : Type} (l : List α) (s j : Nat) (d : α)
    (hs : s ≤ l.length) (k : Nat) :
    (l.take s ++ List.replicate j d)[k]? =
      if k < s then l[k]? else if k < s + j then some d else none := by
  have hlen : (l.take s).length = s := by rw [List.length_take]; omega
  rw [List.getElem?_append, hlen, List.getElem?_replicate]
  by_cases h1 : k < s
  · rw [if_pos h1, if_pos h1, List.getElem?_take_of_lt h1]
  · rw [if_neg h1, if_neg h1]
    by_cases h2 : k < s + j
    · rw [if_pos h2, if_pos (by omega)]
    · rw [if_neg h2, if_neg (by omega)]

namespace ArrayPtr

theorem ofSize_zero {α : Type} [Inhabited α] (alloc : Nat → Bool) :
    (ofSize alloc 0 : Except Error (ArrayPtr α)) = .ok ⟨none⟩ := by
  simp [ofSize]

theorem ofSize_pos {α : Type} [Inhabited α] (alloc : Nat → Bool) (n : Nat) (hn : n ≠ 0)
    (h : alloc n = true) :
    (ofSize alloc n : Except Error (ArrayPtr α)) = .ok ⟨some (List.replicate n default)⟩ := by
  simp [ofSize, hn, h]

theorem ofSize_fail {α : Type} [Inhabited α] (alloc : Nat → Bool) (n : Nat) (hn : n ≠ 0)
    (h : alloc n = false) :
    (ofSize alloc n : Except Error (ArrayPtr α)) = .error Error.bad_alloc := by
  simp [ofSize, hn, h]

/-- What a successful `ArrayPtr(size)` owns: exactly `size` slots, null for size 0. -/
theorem ofSize_ok {α : Type} [Inhabited α] (alloc : Nat → Bool) (n : Nat) (p : ArrayPtr α)
    (h : ofSize alloc n = .ok p) :
    p.slots = n ∧ (n = 0 → p.raw_ptr_ = none) ∧ p.cells = List.replicate n default := by
  unfold ofSize at h
  by_cases hn : n = 0
  · subst hn
    simp at h
    subst h
    simp [slots, cells]
  · by_cases ha : alloc n = true
    · simp [hn, ha] at h
      subst h
      simp [slots, cells, hn]
    · simp [hn, ha] at h

theorem slots_onCells {α : Type} (p : ArrayPtr α) (f : List α → List α)
    (hf : ∀ l, (f l).length = l.length) : (p.onCells f).slots = p.slots := by
  cases p with
  | mk raw =>
    cases raw with
    | none => rfl
    | some l => simp [onCells, slots, cells, hf]

theorem raw_onCells_none {α : Type} (p : ArrayPtr α) (f : List α → List α) :
    (p.onCells f).raw_ptr_ = none ↔ p.raw_ptr_ = none := by
  cases p with
  | mk raw => cases raw <;> simp [onCells]

theorem slots_write {α : Type} (p : ArrayPtr α) (i : Nat) (x : α) :
    (p.write i x).slots = p.slots :=
  slots_onCells p _ (fun l => by simp)

theorem raw_write_none {α : Type} (p : ArrayPtr α) (i : Nat) (x : α) :
    (p.write i x).raw_ptr_ = none ↔ p.raw_ptr_ = none :=
  raw_onCells_none p _

/-- In-place work that keeps the number of slots acts on the cells. -/
theorem cells_onCells {α : Type} (p : ArrayPtr α) (f : List α → List α)
    (hf : ∀ l, (f l).length = l.length) : (p.onCells f).cells = f p.cells := by
  cases p with
  | mk raw =>
    cases raw with
    | none =>
      have h0 : f [] = [] := List.length_eq_zero.mp (by rw [hf]; rfl)
      simp [onCells, cells, h0]
    | some l => simp [onCells, cells]

theorem cells_write {α : Type} (p : ArrayPtr α) (i : Nat) (x : α) :
    (p.write i x).cells = p.cells.set i x :=
  cells_onCells p _ (fun l => by simp)

end ArrayPtr

/-! ## The operations of `SimpleVector` -/

namespace SimpleVector

theorem grown_ne_zero (c : Nat) : grown c ≠ 0 := by
  unfold grown; split <;> omega

theorem grown_gt (c : Nat) : c < grown c := by
  unfold grown; split <;> omega

theorem cells_length_of_invariant {α : Type} (v : SimpleVector α) (h : Invariant v) :
    v.items_.cells.length = v.capacity_ := h.2.1

theorem live_getElem? {α : Type} (v : SimpleVector α) (k : Nat) :
    (live v)[k]? = if k < v.size_ then v.items_.cells[k]? else none := by
  unfold live; rw [List.getElem?_take]

theorem live_length {α : Type} (v : SimpleVector α) (h : Invariant v) :
    (live v).length = v.size_ := by
  unfold live
  rw [List.length_take, cells_length_of_invariant v h]
  exact Nat.min_eq_left h.1

/-- Cells of the buffer after the growth path of `Insert`. -/
theorem insert_grow_cells {α : Type} [Inhabited α] (src : List α) (n i : Nat) (x : α) (N : Nat)
    (hn : src.length = n) (hi : i ≤ n) (hN : n < N) :
    (copy_loop src (n - i) i (i + 1)
        ((copy_loop src (i - 0) 0 0 (List.replicate N default)).set i x)).take (n + 1) =
      src.take i ++ x :: src.drop i := by
  apply List.ext_getElem?
  intro k
  rw [getElem?_take_cons_drop src i x (by omega), List.getElem?_take, copy_loop_getElem?,
    List.length_set, copy_loop_length, List.length_replicate, List.getElem?_set,
    copy_loop_length, List.length_replicate, copy_loop_getElem?, List.length_replicate,
    List.getElem?_replicate]
  by_cases h1 : k < i
  · have c1 : k < n + 1 := by omega
    have c2 : ¬ (i + 1 ≤ k ∧ k < i + 1 + (n - i) ∧ k < N) := by omega
    have c3 : ¬ i = k := by omega
    have c4 : 0 ≤ k ∧ k < 0 + (i - 0) ∧ k < N := by omega
    have c5 : 0 + (k - 0) = k := by omega
    rw [if_pos c1, if_neg c2, if_neg c3, if_pos c4, if_pos h1, c5,
      some_getD_of_lt src k default (by omega)]
  · rw [if_neg h1]
    by_cases h2 : k = i
    · subst h2
      have c1 : k < n + 1 := by omega
      have c2 : ¬ (k + 1 ≤ k ∧ k < k + 1 + (n - k) ∧ k < N) := by omega
      have c3 : k < N := by omega
      rw [if_pos c1, if_neg c2, if_pos rfl, if_pos c3, if_pos rfl]
    · rw [if_neg h2]
      by_cases h3 : k < n + 1
      · have c2 : i + 1 ≤ k ∧ k < i + 1 + (n - i) ∧ k < N := by omega
        have c5 : i + (k - (i + 1)) = k - 1 := by omega
        rw [if_pos h3, if_pos c2, c5, some_getD_of_lt src (k - 1) default (by omega)]
      · rw [if_neg h3, List.getElem?_eq_none (by omega)]

/-- Cells of the buffer after the in-place path of `Insert`. -/
theorem insert_inplace_cells {α : Type} [Inhabited α] (buf : List α) (n i : Nat) (x : α)
    (hn : n < buf.length) (hi : i ≤ n) :
    ((backward_loop (n - i) n (n + 1) buf).set i x).take (n + 1) =
      (buf.take n).take i ++ x :: (buf.take n).drop i := by
  apply List.ext_getElem?
  intro k
  have hlen : (buf.take n).length = n := by rw [List.length_take]; omega
  rw [getElem?_take_cons_drop (buf.take n) i x (by omega), List.getElem?_take,
    List.getElem?_set, backward_loop_length,
    backward_loop_getElem? (n - i) n (n + 1) buf k (by omega) (by omega)]
  by_cases h1 : k < i
  · have c1 : k < n + 1 := by omega
    have c2 : ¬ (n + 1 - (n - i) ≤ k ∧ k < n + 1 ∧ k < buf.length) := by omega
    have c3 : ¬ i = k := by omega
    rw [if_pos c1, if_neg c3, if_neg c2, if_pos h1, List.getElem?_take_of_lt (by omega)]
  · rw [if_neg h1]
    by_cases h2 : k = i
    · subst h2
      have c1 : k < n + 1 := by omega
      have c3 : k < buf.length := by omega
      rw [if_pos c1, if_pos rfl, if_pos c3, if_pos rfl]
    · have c3 : ¬ i = k := by omega
      rw [if_neg h2, if_neg c3]
      by_cases h3 : k < n + 1
      · have c2 : n + 1 - (n - i) ≤ k ∧ k < n + 1 ∧ k < buf.length := by omega
        have c5 : n - (n + 1 - k) = k - 1 := by omega
        rw [if_pos h3, if_pos c2, c5, some_getD_of_lt buf (k - 1) default (by omega),
          List.getElem?_take_of_lt (by omega)]
      · rw [if_neg h3, List.getElem?_eq_none (by omega)]


theorem Insert_grow {α : Type} [Inhabited α] (alloc : Nat → Bool) (v : SimpleVector α) (i : Nat)
    (x : ItemRef α) (hfull : v.size_ = v.capacity_) (ha : alloc (grown v.capacity_) = true) :
    Insert alloc v i x = .returned i ⟨v.size_ + 1, grown v.capacity_,
      ⟨some (copy_loop v.items_.cells (v.size_ - i) i (i + 1)
        ((copy_loop v.items_.cells (i - 0) 0 0
          (List.replicate (grown v.capacity_) default)).set i (x.read v.items_)))⟩⟩ := by
  unfold Insert
  rw [if_pos hfull]
  simp only [ArrayPtr.ofSize_pos alloc (grown v.capacity_) (grown_ne_zero _) ha]
  rfl

theorem Insert_inplace {α : Type} [Inhabited α] (alloc : Nat → Bool) (v : SimpleVector α)
    (i : Nat) (x : ItemRef α) (hroom : v.size_ ≠ v.capacity_) :
    Insert alloc v i x = .returned i ⟨v.size_ + 1, v.capacity_,
      (v.items_.onCells (fun b => std_move_backward b i v.size_ (v.size_ + 1))).write i
        (x.read (v.items_.onCells (fun b => std_move_backward b i v.size_ (v.size_ + 1))))⟩ := by
  unfold Insert
  rw [if_neg hroom]

/-- The value `Insert` stores at the position: what the read of `value` finds at the
statement that reads it, on either path. -/
theorem Insert_live {α : Type} [Inhabited α] (alloc : Nat → Bool) (v : SimpleVector α)
    (i : Nat) (x : ItemRef α) (hinv : Invariant v) (hi : i ≤ v.size_)
    (ha : v.size_ = v.capacity_ → alloc (grown v.capacity_) = true) :
    Insert alloc v i x = .returned i (Insert alloc v i x).state ∧
      (Insert alloc v i x).state.size_ = v.size_ + 1 ∧
      live (Insert alloc v i x).state =
        (live v).take i ++
          (if v.size_ = v.capacity_ then x.read v.items_
            else x.read
              (v.items_.onCells (fun b => std_move_backward b i v.size_ (v.size_ + 1)))) ::
          (live v).drop i := by
  obtain ⟨h1, h2, _⟩ := hinv
  have hlen : v.items_.cells.length = v.capacity_ := h2
  by_cases hfull : v.size_ = v.capacity_
  · rw [Insert_grow alloc v i x hfull (ha hfull), if_pos hfull]
    refine ⟨rfl, rfl, ?_⟩
    simp only [Outcome.state, live, ArrayPtr.cells, Option.getD_some]
    have hcells : v.items_.raw_ptr_.getD [] = v.items_.cells := rfl
    rw [hcells, insert_grow_cells v.items_.cells v.size_ i _ (grown v.capacity_)
      (by omega) hi (by have := grown_gt v.capacity_; omega)]
    have hl : List.take v.size_ v.items_.cells = v.items_.cells :=
      List.take_of_length_le (by omega)
    rw [hl]
  · rw [Insert_inplace alloc v i x hfull, if_neg hfull]
    refine ⟨rfl, rfl, ?_⟩
    simp only [Outcome.state, live]
    rw [ArrayPtr.cells_write, ArrayPtr.cells_onCells _ _
      (fun l => by simp [std_move_backward, backward_loop_length])]
    exact insert_inplace_cells v.items_.cells v.size_ i _ (by omega) hi

/-- `Insert` of an object that is no element of the vector. -/
theorem Insert_object_live {α : Type} [Inhabited α] (alloc : Nat → Bool) (v : SimpleVector α)
    (i : Nat) (x : α) (hinv : Invariant v) (hi : i ≤ v.size_)
    (ha : v.size_ = v.capacity_ → alloc (grown v.capacity_) = true) :
    Insert alloc v i (ItemRef.object x) =
        .returned i (Insert alloc v i (ItemRef.object x)).state ∧
      (Insert alloc v i (ItemRef.object x)).state.size_ = v.size_ + 1 ∧
      live (Insert alloc v i (ItemRef.object x)).state =
        (live v).take i ++ x :: (live v).drop i := by
  obtain ⟨h1, h2, h3⟩ := Insert_live alloc v i (ItemRef.object x) hinv hi ha
  refine ⟨h1, h2, ?_⟩
  rw [h3]
  simp only [ItemRef.read, ite_self]

/-- Cells of the buffer after `Erase`. -/
theorem erase_cells {α : Type} [Inhabited α] (buf : List α) (n i : Nat)
    (hn : n ≤ buf.length) (hi : i < n) :
    (shift_loop (n - (i + 1)) (i + 1) i buf).take (n - 1) =
      (buf.take n).take i ++ (buf.take n).drop (i + 1) := by
  apply List.ext_getElem?
  intro k
  rw [getElem?_take_drop_succ, List.getElem?_take,
    shift_loop_getElem? _ _ _ _ _ (by omega)]
  by_cases h1 : k < i
  · have c1 : k < n - 1 := by omega
    have c2 : ¬ (i ≤ k ∧ k < i + (n - (i + 1)) ∧ k < buf.length) := by omega
    rw [if_pos c1, if_neg c2, if_pos h1, List.getElem?_take_of_lt (by omega)]
  · rw [if_neg h1]
    by_cases h3 : k < n - 1
    · have c2 : i ≤ k ∧ k < i + (n - (i + 1)) ∧ k < buf.length := by omega
      have c5 : i + 1 + (k - i) = k + 1 := by omega
      rw [if_pos h3, if_pos c2, c5, some_getD_of_lt buf (k + 1) default (by omega),
        List.getElem?_take_of_lt (by omega)]
    · rw [if_neg h3, List.getElem?_take, if_neg (by omega)]

/-- Cells of the buffer after the growth path of `PushBack`. -/
theorem push_grow_cells {α : Type} [Inhabited α] (src : List α) (n : Nat) (x : α) (N : Nat)
    (hn : src.length = n) (hN : n < N) :
    ((copy_loop src (n - 0) 0 0 (List.replicate N default)).set n x).take (n + 1) =
      src ++ [x] := by
  apply List.ext_getElem?
  intro k
  rw [List.getElem?_take, List.getElem?_set, copy_loop_length, List.length_replicate,
    copy_loop_getElem?, List.length_replicate, List.getElem?_replicate, List.getElem?_append,
    hn]
  by_cases h1 : k < n
  · have c4 : 0 ≤ k ∧ k < 0 + (n - 0) ∧ k < N := by omega
    have c5 : 0 + (k - 0) = k := by omega
    rw [if_pos (by omega), if_neg (by omega), if_pos c4, if_pos h1, c5,
      some_getD_of_lt src k default (by omega)]
  · rw [if_neg h1]
    by_cases h2 : k = n
    · subst h2
      rw [if_pos (by omega), if_pos rfl, if_pos hN, Nat.sub_self]
      rfl
    · by_cases h3 : k < n + 1
      · omega
      · rw [if_neg h3, List.getElem?_eq_none (by simp; omega)]

/-- Cells of the buffer after the in-place path of `PushBack`. -/
theorem push_inplace_cells {α : Type} (buf : List α) (n : Nat) (x : α) (hn : n < buf.length) :
    (buf.set n x).take (n + 1) = buf.take n ++ [x] := by
  apply List.ext_getElem?
  intro k
  have hlen : (buf.take n).length = n := by rw [List.length_take]; omega
  rw [List.getElem?_take, List.getElem?_set, List.getElem?_append, hlen]
  by_cases h1 : k < n
  · rw [if_pos (by omega), if_neg (by omega), if_pos h1, List.getElem?_take_of_lt h1]
  · rw [if_neg h1]
    by_cases h2 : k = n
    · subst h2
      rw [if_pos (by omega), if_pos rfl, if_pos hn, Nat.sub_self]
      rfl
    · rw [if_neg (by omega), List.getElem?_eq_none (by simp; omega)]

/-- Cells of the buffer after the in-place growing path of `Resize`. -/
theorem resize_inplace_cells {α : Type} (buf : List α) (s m : Nat) (d : α)
    (hs : s ≤ m) (hm : m ≤ buf.length) :
    (fill_loop d (m - s) s buf).take m = buf.take s ++ List.replicate (m - s) d := by
  apply List.ext_getElem?
  intro k
  rw [getElem?_take_append_replicate buf s (m - s) d (by omega), List.getElem?_take,
    fill_loop_getElem?]
  by_cases h1 : k < s
  · rw [if_pos (by omega), if_neg (by omega), if_pos h1]
  · rw [if_neg h1]
    by_cases h2 : k < m
    · have c : s ≤ k ∧ k < s + (m - s) ∧ k < buf.length := by omega
      rw [if_pos h2, if_pos c, if_pos (by omega)]
    · rw [if_neg h2, if_neg (by omega)]

/-- Cells of the buffer after the reallocating path of `Resize`. -/
theorem resize_grow_cells {α : Type} [Inhabited α] (src : List α) (s m N : Nat)
    (hs : s ≤ src.length) (hsm : s ≤ m) (hN : m ≤ N) :
    (fill_loop default (m - s) s
        (copy_loop src (s - 0) 0 0 (List.replicate N default))).take m =
      src.take s ++ List.replicate (m - s) default := by
  apply List.ext_getElem?
  intro k
  rw [getElem?_take_append_replicate src s (m - s) default hs, List.getElem?_take,
    fill_loop_getElem?, copy_loop_length, List.length_replicate, copy_loop_getElem?,
    List.length_replicate, List.getElem?_replicate]
  by_cases h1 : k < s
  · have c4 : 0 ≤ k ∧ k < 0 + (s - 0) ∧ k < N := by omega
    have c5 : 0 + (k - 0) = k := by omega
    rw [if_pos (by omega), if_neg (by omega), if_pos c4, if_pos h1, c5,
      some_getD_of_lt src k default (by omega)]
  · rw [if_neg h1]
    by_cases h2 : k < m
    · have c : s ≤ k ∧ k < s + (m - s) ∧ k < N := by omega
      rw [if_pos h2, if_pos c, if_pos (by omega)]
    · rw [if_neg h2, if_neg (by omega)]

/-- Cells of the buffer after the reallocating path of `Reserve`. -/
theorem reserve_cells {α : Type} [Inhabited α] (src : List α) (s N : Nat)
    (hs : s ≤ src.length) (hN : s ≤ N) :
    (copy_loop src (s - 0) 0 0 (List.replicate N default)).take s = src.take s := by
  apply List.ext_getElem?
  intro k
  rw [List.getElem?_take, List.getElem?_take, copy_loop_getElem?, List.length_replicate,
    List.getElem?_replicate]
  by_cases h1 : k < s
  · have c4 : 0 ≤ k ∧ k < 0 + (s - 0) ∧ k < N := by omega
    have c5 : 0 + (k - 0) = k := by omega
    rw [if_pos h1, if_pos c4, if_pos h1, c5, some_getD_of_lt src k default (by omega)]
  · rw [if_neg h1, if_neg h1]


theorem std_move_length {α : Type} [Inhabited α] (src : List α) (first last : Nat)
    (dst : List α) (d : Nat) : (std_move src first last dst d).length = dst.length :=
  copy_loop_length src _ _ _ _

theorem std_copy_length {α : Type} [Inhabited α] (src : List α) (first last : Nat)
    (dst : List α) (d : Nat) : (std_copy src first last dst d).length = dst.length :=
  copy_loop_length src _ _ _ _

theorem std_move_within_length {α : Type} [Inhabited α] (buf : List α) (first last d : Nat) :
    (std_move_within buf first last d).length = buf.length :=
  shift_loop_length _ _ _ _

theorem std_move_backward_length {α : Type} [Inhabited α] (buf : List α) (first last d : Nat) :
    (std_move_backward buf first last d).length = buf.length :=
  backward_loop_length _ _ _ _

theorem std_fill_length {α : Type} (buf : List α) (first last : Nat) (x : α) :
    (std_fill buf first last x).length = buf.length :=
  fill_loop_length x _ _ _

/-- A buffer fresh from `ArrayPtr(n)`, worked on in place, under counters that fit. -/
theorem invariant_of_fresh {α : Type} [Inhabited α] (alloc : Nat → Bool) (n : Nat)
    (temp : ArrayPtr α) (h : ArrayPtr.ofSize alloc n = .ok temp) (items : ArrayPtr α)
    (hslots : items.slots = temp.slots)
    (hnull : temp.raw_ptr_ = none → items.raw_ptr_ = none) (s : Nat) (hs : s ≤ n) :
    Invariant ⟨s, n, items⟩ := by
  obtain ⟨h1, h2, _⟩ := ArrayPtr.ofSize_ok alloc n temp h
  exact ⟨hs, by rw [hslots, h1], fun h0 => hnull (h2 h0)⟩

theorem PushBack_invariant {α : Type} [Inhabited α] (alloc : Nat → Bool) (v : SimpleVector α)
    (item : ItemRef α) (h : Invariant v) : Invariant (PushBack alloc v item).state := by
  unfold PushBack
  split
  · rename_i hfull
    dsimp only
    split
    · exact h
    · rename_i temp htemp
      refine invariant_of_fresh alloc _ temp htemp _ ?_ ?_ _ ?_
      · rw [ArrayPtr.slots_write, ArrayPtr.slots_onCells _ _ (fun l => std_move_length _ _ _ _ _)]
      · intro h0
        rw [ArrayPtr.raw_write_none, ArrayPtr.raw_onCells_none]
        exact h0
      · have := grown_gt v.capacity_
        omega
  · rename_i hroom
    obtain ⟨h1, h2, h3⟩ := h
    refine ⟨?_, ?_, ?_⟩
    · show v.size_ + 1 ≤ v.capacity_
      omega
    · show (v.items_.write v.size_ _).slots = v.capacity_
      rw [ArrayPtr.slots_write]; exact h2
    · intro h0
      have h0 : v.capacity_ = 0 := h0
      omega


theorem empty_invariant {α : Type} : Invariant (empty : SimpleVector α) :=
  ⟨Nat.le_refl 0, rfl, fun _ => rfl⟩

theorem ofReserve_invariant {α : Type} [Inhabited α] (alloc : Nat → Bool) (r : ReserveProxyObj)
    (v : SimpleVector α) (h : ofReserve alloc r = .ok v) : Invariant v := by
  unfold ofReserve at h
  split at h
  · exact absurd h (by simp)
  · rename_i items hitems
    injection h with h
    subst h
    exact invariant_of_fresh alloc _ items hitems _ rfl (fun h0 => h0) _ (Nat.zero_le _)

theorem copyCtor_invariant {α : Type} [Inhabited α] (alloc : Nat → Bool)
    (other v : SimpleVector α) (ho : Invariant other) (h : copyCtor alloc other = .ok v) :
    Invariant v := by
  unfold copyCtor at h
  split at h
  · exact absurd h (by simp)
  · rename_i items hitems
    injection h with h
    subst h
    refine invariant_of_fresh alloc _ items hitems _ ?_ ?_ _ ho.1
    · rw [ArrayPtr.slots_onCells _ _ (fun l => std_copy_length _ _ _ _ _)]
    · intro h0; rw [ArrayPtr.raw_onCells_none]; exact h0

theorem moveCtor_invariant {α : Type} (other : SimpleVector α) (ho : Invariant other) :
    Invariant (moveCtor other).1 ∧ Invariant (moveCtor other).2 :=
  ⟨ho, Nat.le_refl 0, rfl, fun _ => rfl⟩

theorem ofSize_invariant {α : Type} [Inhabited α] (alloc : Nat → Bool) (size : Nat)
    (v : SimpleVector α) (h : ofSize alloc size = .ok v) : Invariant v := by
  unfold ofSize at h
  split at h
  · exact absurd h (by simp)
  · rename_i items hitems
    injection h with h
    subst h
    refine invariant_of_fresh alloc _ items hitems _ ?_ ?_ _ (Nat.le_refl _)
    · rw [ArrayPtr.slots_onCells _ _ (fun l => std_fill_length _ _ _ _)]
    · intro h0; rw [ArrayPtr.raw_onCells_none]; exact h0

theorem ofSizeValue_invariant {α : Type} [Inhabited α] (alloc : Nat → Bool) (size : Nat)
    (value : α) (v : SimpleVector α) (h : ofSizeValue alloc size value = .ok v) :
    Invariant v := by
  unfold ofSizeValue at h
  split at h
  · exact absurd h (by simp)
  · rename_i items hitems
    injection h with h
    subst h
    refine invariant_of_fresh alloc _ items hitems _ ?_ ?_ _ (Nat.le_refl _)
    · rw [ArrayPtr.slots_onCells _ _ (fun l => std_fill_length _ _ _ _)]
    · intro h0; rw [ArrayPtr.raw_onCells_none]; exact h0

theorem ofList_invariant {α : Type} [Inhabited α] (alloc : Nat → Bool) (init : List α)
    (v : SimpleVector α) (h : ofList alloc init = .ok v) : Invariant v := by
  unfold ofList at h
  split at h
  · exact absurd h (by simp)
  · rename_i items hitems
    injection h with h
    subst h
    refine invariant_of_fresh alloc _ items hitems _ ?_ ?_ _ (Nat.le_refl _)
    · rw [ArrayPtr.slots_onCells _ _ (fun l => std_copy_length _ _ _ _ _)]
    · intro h0; rw [ArrayPtr.raw_onCells_none]; exact h0

theorem swap_invariant {α : Type} (a b : SimpleVector α) (ha : Invariant a) (hb : Invariant b) :
    Invariant (swap a b).1 ∧ Invariant (swap a b).2 :=
  ⟨hb, ha⟩

theorem copyAssign_invariant {α : Type} [Inhabited α] (alloc : Nat → Bool)
    (self rhs : SimpleVector α) (hs : Invariant self) (hr : Invariant rhs) :
    Invariant (copyAssign alloc self rhs).state := by
  unfold copyAssign
  split
  · exact hs
  · rename_i temp htemp
    exact (swap_invariant self temp hs (copyCtor_invariant alloc rhs temp hr htemp)).1

theorem moveAssign_invariant {α : Type} (self rhs : SimpleVector α) (hr : Invariant rhs) :
    Invariant (moveAssign self rhs).1 ∧ Invariant (moveAssign self rhs).2 :=
  ⟨hr, Nat.le_refl 0, rfl, fun _ => rfl⟩

theorem Insert_invariant {α : Type} [Inhabited α] (alloc : Nat → Bool) (v : SimpleVector α)
    (i : Nat) (x : ItemRef α) (h : Invariant v) : Invariant (Insert alloc v i x).state := by
  unfold Insert
  split
  · rename_i hfull
    dsimp only
    split
    · exact h
    · rename_i temp htemp
      refine invariant_of_fresh alloc _ temp htemp _ ?_ ?_ _ ?_
      · rw [ArrayPtr.slots_onCells _ _ (fun l => std_move_length _ _ _ _ _),
          ArrayPtr.slots_write,
          ArrayPtr.slots_onCells _ _ (fun l => std_move_length _ _ _ _ _)]
      · intro h0
        rw [ArrayPtr.raw_onCells_none, ArrayPtr.raw_write_none, ArrayPtr.raw_onCells_none]
        exact h0
      · have := grown_gt v.capacity_
        omega
  · rename_i hroom
    obtain ⟨h1, h2, h3⟩ := h
    refine ⟨?_, ?_, ?_⟩
    · show v.size_ + 1 ≤ v.capacity_
      omega
    · show ((v.items_.onCells _).write i _).slots = v.capacity_
      rw [ArrayPtr.slots_write,
        ArrayPtr.slots_onCells _ _ (fun l => std_move_backward_length _ _ _ _)]
      exact h2
    · intro h0
      have h0 : v.capacity_ = 0 := h0
      omega

theorem PopBack_invariant {α : Type} (v : SimpleVector α) (h : Invariant v) :
    Invariant (PopBack v) := by
  unfold PopBack
  split
  · exact h
  · exact ⟨Nat.le_trans (Nat.sub_le _ _) h.1, h.2.1, h.2.2⟩

theorem Erase_invariant {α : Type} [Inhabited α] (v : SimpleVector α) (i : Nat)
    (h : Invariant v) : Invariant (Erase v i).1 := by
  obtain ⟨h1, h2, h3⟩ := h
  refine ⟨Nat.le_trans (Nat.sub_le _ _) h1, ?_, ?_⟩
  · show (v.items_.onCells _).slots = v.capacity_
    rw [ArrayPtr.slots_onCells _ _ (fun l => std_move_within_length _ _ _ _)]
    exact h2
  · intro h0
    show (v.items_.onCells _).raw_ptr_ = none
    rw [ArrayPtr.raw_onCells_none]
    exact h3 h0

theorem Clear_invariant {α : Type} (v : SimpleVector α) (h : Invariant v) :
    Invariant (Clear v) :=
  ⟨Nat.zero_le _, h.2.1, h.2.2⟩

theorem Resize_invariant {α : Type} [Inhabited α] (alloc : Nat → Bool) (v : SimpleVector α)
    (m : Nat) (h : Invariant v) : Invariant (Resize alloc v m).state := by
  unfold Resize
  split
  · rename_i hle
    exact ⟨Nat.le_trans hle h.1, h.2.1, h.2.2⟩
  · split
    · rename_i hle
      obtain ⟨h1, h2, h3⟩ := h
      refine ⟨hle, ?_, ?_⟩
      · show (v.items_.onCells _).slots = v.capacity_
        rw [ArrayPtr.slots_onCells _ _ (fun l => std_fill_length _ _ _ _)]
        exact h2
      · intro h0
        show (v.items_.onCells _).raw_ptr_ = none
        rw [ArrayPtr.raw_onCells_none]
        exact h3 h0
    · dsimp only
      split
      · exact h
      · rename_i temp htemp
        refine invariant_of_fresh alloc _ temp htemp _ ?_ ?_ _ (Nat.le_max_right _ _)
        · rw [ArrayPtr.slots_onCells _ _ (fun l => std_fill_length _ _ _ _),
            ArrayPtr.slots_onCells _ _ (fun l => std_move_length _ _ _ _ _)]
        · intro h0
          rw [ArrayPtr.raw_onCells_none, ArrayPtr.raw_onCells_none]
          exact h0

theorem Reserve_invariant {α : Type} [Inhabited α] (alloc : Nat → Bool) (v : SimpleVector α)
    (r : Nat) (h : Invariant v) : Invariant (Reserve alloc v r).state := by
  unfold Reserve
  split
  · rename_i hgt
    split
    · exact h
    · rename_i temp htemp
      refine invariant_of_fresh alloc _ temp htemp _ ?_ ?_ _ ?_
      · rw [ArrayPtr.slots_onCells _ _ (fun l => std_move_length _ _ _ _ _)]
      · intro h0
        rw [ArrayPtr.raw_onCells_none]
        exact h0
      · have := h.1
        omega
  · exact h

theorem store_invariant {α : Type} (v : SimpleVector α) (i : Nat) (x : α) (h : Invariant v) :
    Invariant (store v i x) := by
  obtain ⟨h1, h2, h3⟩ := h
  refine ⟨h1, ?_, ?_⟩
  · show (v.items_.write i x).slots = v.capacity_
    rw [ArrayPtr.slots_write]; exact h2
  · intro h0
    show (v.items_.write i x).raw_ptr_ = none
    rw [ArrayPtr.raw_write_none]
    exact h3 h0


theorem index_eq_live {α : Type} [Inhabited α] (v : SimpleVector α) (h : Invariant v) (i : Nat) :
    index v i = (live v)[i]? := by
  unfold index
  rw [live_getElem?]
  by_cases hi : i < v.size_
  · have hlen := cells_length_of_invariant v h
    have h1 := h.1
    rw [if_pos hi, if_pos hi]
    exact some_getD_of_lt _ _ _ (by omega)
  · rw [if_neg hi, if_neg hi]

theorem PushBack_grow {α : Type} [Inhabited α] (alloc : Nat → Bool) (v : SimpleVector α)
    (x : ItemRef α) (hfull : v.size_ = v.capacity_) (ha : alloc (grown v.capacity_) = true) :
    PushBack alloc v x = .returned () ⟨v.size_ + 1, grown v.capacity_,
      ⟨some ((copy_loop v.items_.cells (v.size_ - 0) 0 0
          (List.replicate (grown v.capacity_) default)).set v.size_ x.readDeleted)⟩⟩ := by
  unfold PushBack
  rw [if_pos hfull]
  simp only [ArrayPtr.ofSize_pos alloc (grown v.capacity_) (grown_ne_zero _) ha]
  rfl

theorem PushBack_inplace {α : Type} [Inhabited α] (alloc : Nat → Bool) (v : SimpleVector α)
    (x : ItemRef α) (hroom : v.size_ ≠ v.capacity_) :
    PushBack alloc v x =
      .returned () ⟨v.size_ + 1, v.capacity_, v.items_.write v.size_ (x.read v.items_)⟩ := by
  unfold PushBack
  rw [if_neg hroom]

/-- The value `PushBack` appends: what the read of `item` finds at `items_[size_] = item`,
after the old array is gone on the growth path, in the array at hand otherwise. -/
theorem PushBack_live {α : Type} [Inhabited α] (alloc : Nat → Bool) (v : SimpleVector α)
    (x : ItemRef α) (hinv : Invariant v)
    (ha : v.size_ = v.capacity_ → alloc (grown v.capacity_) = true) :
    PushBack alloc v x = .returned () (PushBack alloc v x).state ∧
      (PushBack alloc v x).state.size_ = v.size_ + 1 ∧
      live (PushBack alloc v x).state =
        live v ++ [if v.size_ = v.capacity_ then x.readDeleted else x.read v.items_] := by
  obtain ⟨h1, h2, _⟩ := hinv
  have hlen : v.items_.cells.length = v.capacity_ := h2
  by_cases hfull : v.size_ = v.capacity_
  · rw [PushBack_grow alloc v x hfull (ha hfull), if_pos hfull]
    refine ⟨rfl, rfl, ?_⟩
    simp only [Outcome.state, live, ArrayPtr.cells, Option.getD_some]
    have hcells : v.items_.raw_ptr_.getD [] = v.items_.cells := rfl
    rw [hcells, push_grow_cells v.items_.cells v.size_ _ (grown v.capacity_)
      (by omega) (by have := grown_gt v.capacity_; omega)]
    have hl : List.take v.size_ v.items_.cells = v.items_.cells :=
      List.take_of_length_le (by omega)
    rw [hl]
  · rw [PushBack_inplace alloc v x hfull, if_neg hfull]
    refine ⟨rfl, rfl, ?_⟩
    simp only [Outcome.state, live]
    rw [ArrayPtr.cells_write]
    exact push_inplace_cells v.items_.cells v.size_ _ (by omega)

/-- `PushBack` of an object that is no element of the vector. -/
theorem PushBack_object_live {α : Type} [Inhabited α] (alloc : Nat → Bool)
    (v : SimpleVector α) (x : α) (hinv : Invariant v)
    (ha : v.size_ = v.capacity_ → alloc (grown v.capacity_) = true) :
    PushBack alloc v (ItemRef.object x) =
        .returned () (PushBack alloc v (ItemRef.object x)).state ∧
      (PushBack alloc v (ItemRef.object x)).state.size_ = v.size_ + 1 ∧
      live (PushBack alloc v (ItemRef.object x)).state = live v ++ [x] := by
  obtain ⟨h1, h2, h3⟩ := PushBack_live alloc v (ItemRef.object x) hinv ha
  refine ⟨h1, h2, ?_⟩
  rw [h3]
  simp only [ItemRef.read, ItemRef.readDeleted, ite_self]

theorem Erase_live {α : Type} [Inhabited α] (v : SimpleVector α) (i : Nat)
    (hinv : Invariant v) (hi : i < v.size_) :
    live (Erase v i).1 = (live v).take i ++ (live v).drop (i + 1) := by
  obtain ⟨h1, h2, _⟩ := hinv
  have hlen : v.items_.cells.length = v.capacity_ := h2
  simp only [Erase, live]
  rw [ArrayPtr.cells_onCells _ _ (fun l => std_move_within_length _ _ _ _)]
  exact erase_cells v.items_.cells v.size_ i (by omega) hi

theorem Resize_live {α : Type} [Inhabited α] (alloc : Nat → Bool) (v : SimpleVector α)
    (m : Nat) (hinv : Invariant v)
    (ha : v.capacity_ < m → alloc (max (v.capacity_ * 2) m) = true) :
    Resize alloc v m = .returned () (Resize alloc v m).state ∧
      (Resize alloc v m).state.size_ = m ∧
      live (Resize alloc v m).state =
        (live v).take (min v.size_ m) ++ List.replicate (m - v.size_) default ∧
      (Resize alloc v m).state.capacity_ =
        if m ≤ v.capacity_ then v.capacity_ else max (v.capacity_ * 2) m := by
  obtain ⟨h1, h2, _⟩ := hinv
  have hlen : v.items_.cells.length = v.capacity_ := h2
  unfold Resize
  by_cases hshrink : m ≤ v.size_
  · rw [if_pos hshrink]
    refine ⟨rfl, rfl, ?_, ?_⟩
    · simp only [Outcome.state, live]
      rw [Nat.min_eq_right hshrink, List.take_take, Nat.min_eq_left hshrink,
        Nat.sub_eq_zero_of_le hshrink]
      simp
    · simp only [Outcome.state]
      rw [if_pos (by omega)]
  · rw [if_neg hshrink]
    by_cases hfit : m ≤ v.capacity_
    · rw [if_pos hfit]
      refine ⟨rfl, rfl, ?_, ?_⟩
      · simp only [Outcome.state, live]
        rw [ArrayPtr.cells_onCells _ _ (fun l => std_fill_length _ _ _ _),
          Nat.min_eq_left (by omega), List.take_take, Nat.min_self]
        exact resize_inplace_cells v.items_.cells v.size_ m default (by omega) (by omega)
      · simp only [Outcome.state]
        rw [if_pos hfit]
    · rw [if_neg hfit]
      have hN : max (v.capacity_ * 2) m ≠ 0 := by
        have := Nat.le_max_right (v.capacity_ * 2) m
        omega
      simp only [ArrayPtr.ofSize_pos alloc _ hN (ha (by omega))]
      refine ⟨rfl, rfl, ?_, ?_⟩
      · simp only [Outcome.state, live, ArrayPtr.onCells, Option.map_some', ArrayPtr.cells,
          Option.getD_some]
        have hcells : v.items_.raw_ptr_.getD [] = v.items_.cells := rfl
        rw [hcells, Nat.min_eq_left (by omega), List.take_take, Nat.min_self]
        exact resize_grow_cells v.items_.cells v.size_ m _ (by omega) (by omega)
          (Nat.le_max_right _ _)
      · simp only [Outcome.state]
        rw [if_neg hfit]

theorem Reserve_live {α : Type} [Inhabited α] (alloc : Nat → Bool) (v : SimpleVector α)
    (r : Nat) (hinv : Invariant v) (hgt : v.capacity_ < r) (ha : alloc r = true) :
    Reserve alloc v r = .returned () (Reserve alloc v r).state ∧
      (Reserve alloc v r).state.capacity_ = r ∧
      (Reserve alloc v r).state.size_ = v.size_ ∧
      live (Reserve alloc v r).state = live v := by
  obtain ⟨h1, h2, _⟩ := hinv
  have hlen : v.items_.cells.length = v.capacity_ := h2
  unfold Reserve
  rw [if_pos hgt]
  simp only [ArrayPtr.ofSize_pos alloc r (by omega) ha]
  refine ⟨rfl, rfl, rfl, ?_⟩
  simp only [Outcome.state, live, ArrayPtr.onCells, Option.map_some', ArrayPtr.cells,
    Option.getD_some]
  have hcells : v.items_.raw_ptr_.getD [] = v.items_.cells := rfl
  rw [hcells]
  exact reserve_cells v.items_.cells v.size_ r (by omega) (by omega)

theorem Reserve_noop {α : Type} [Inhabited α] (alloc : Nat → Bool) (v : SimpleVector α)
    (r : Nat) (hle : r ≤ v.capacity_) : Reserve alloc v r = .returned () v := by
  unfold Reserve
  rw [if_neg (by omega)]

theorem pushAll_live {α : Type} [Inhabited α] (alloc : Nat → Bool)
    (halloc : ∀ n, alloc n = true) (xs : List α) :
    ∀ v : SimpleVector α, Invariant v →
      pushAll alloc v xs = .returned () (pushAll alloc v xs).state ∧
        Invariant (pushAll alloc v xs).state ∧
        (pushAll alloc v xs).state.size_ = v.size_ + xs.length ∧
        live (pushAll alloc v xs).state = live v ++ xs := by
  induction xs with
  | nil =>
    intro v hv
    exact ⟨rfl, hv, rfl, by simp [pushAll, Outcome.state]⟩
  | cons x xs ih =>
    intro v hv
    obtain ⟨hret, hsize, hlive⟩ := PushBack_object_live alloc v x hv (fun _ => halloc _)
    have hinv := PushBack_invariant alloc v (ItemRef.object x) hv
    obtain ⟨r1, r2, r3, r4⟩ := ih (PushBack alloc v (ItemRef.object x)).state hinv
    have hstep : pushAll alloc v (x :: xs) =
        pushAll alloc (PushBack alloc v (ItemRef.object x)).state xs := by
      show (PushBack alloc v (ItemRef.object x)).andThen _ = _
      rw [hret]
      rfl
    rw [hstep]
    refine ⟨r1, r2, ?_, ?_⟩
    · rw [r3, hsize, List.length_cons]; omega
    · rw [r4, hlive, List.append_assoc]; rfl


/-- What `operator==` computes: slot-wise equality over the live range of `lhs` only. -/
theorem eq_iff_slots {α : Type} [Inhabited α] [DecidableEq α] (a b : SimpleVector α) :
    eq a b = true ↔
      ∀ k, k < a.size_ → a.items_.cells.getD k default = b.items_.cells.getD k default := by
  unfold eq std_equal
  rw [equal_loop_iff]
  simp

/-- When `lhs` is not longer than `rhs`, `operator==` says whether the live sequence of
`lhs` is an initial segment of the live sequence of `rhs`. -/
theorem eq_iff_take {α : Type} [Inhabited α] [DecidableEq α] (a b : SimpleVector α)
    (ha : Invariant a) (hb : Invariant b) (hle : a.size_ ≤ b.size_) :
    eq a b = true ↔ live a = (live b).take a.size_ := by
  have hla := cells_length_of_invariant a ha
  have hlb := cells_length_of_invariant b hb
  have h1 := ha.1
  have h2 := hb.1
  rw [eq_iff_slots]
  constructor
  · intro h
    apply List.ext_getElem?
    intro k
    rw [List.getElem?_take, live_getElem?, live_getElem?]
    by_cases hk : k < a.size_
    · rw [if_pos hk, if_pos hk, if_pos (by omega), ← some_getD_of_lt _ k default (by omega),
        ← some_getD_of_lt b.items_.cells k default (by omega), h k hk]
    · rw [if_neg hk, if_neg hk]
  · intro h k hk
    have hk2 := congrArg (fun l => l[k]?) h
    simp only [List.getElem?_take, live_getElem?] at hk2
    rw [if_pos hk, if_pos hk, if_pos (by omega)] at hk2
    rw [List.getD_eq_getElem?_getD, List.getD_eq_getElem?_getD, hk2]

/-- On two vectors of the same size `operator==` decides equality of the live sequences. -/
theorem eq_iff_live_of_size_eq {α : Type} [Inhabited α] [DecidableEq α] (a b : SimpleVector α)
    (ha : Invariant a) (hb : Invariant b) (hsz : a.size_ = b.size_) :
    eq a b = true ↔ live a = live b := by
  rw [eq_iff_take a b ha hb (by omega), hsz]
  have : (live b).take b.size_ = live b := by
    unfold live; rw [List.take_take, Nat.min_self]
  rw [this]

end SimpleVector

/-! ## The claims -/

namespace SimpleVector

/-- C1, evaluated on the code: `operator==` walks the live range of `lhs` only and never
compares the sizes.  The empty vector compares equal to the vector `{1}`, and `{1}`
compares equal to `{1, 2}`, although the live sequences differ in length; the claimed
equivalence fails from right to left. -/
theorem eq_true_on_shorter_lhs :
    ofList (fun _ => true) [1] = .ok (⟨1, 1, ⟨some [1]⟩⟩ : SimpleVector Nat) ∧
      ofList (fun _ => true) [1, 2] = .ok (⟨2, 2, ⟨some [1, 2]⟩⟩ : SimpleVector Nat) ∧
      eq (empty : SimpleVector Nat) ⟨1, 1, ⟨some [1]⟩⟩ = true ∧
      (live (empty : SimpleVector Nat)).length ≠
        (live (⟨1, 1, ⟨some [1]⟩⟩ : SimpleVector Nat)).length ∧
      eq (⟨1, 1, ⟨some [1]⟩⟩ : SimpleVector Nat) ⟨2, 2, ⟨some [1, 2]⟩⟩ = true ∧
      live (⟨1, 1, ⟨some [1]⟩⟩ : SimpleVector Nat) ≠
        live (⟨2, 2, ⟨some [1, 2]⟩⟩ : SimpleVector Nat) := by
  refine ⟨rfl, rfl, rfl, by decide, rfl, by decide⟩

/-- C2. Every reachable state of a `SimpleVector` (any constructor followed by any
sequence of `PushBack`, `Insert`, `PopBack`, `Erase`, `Clear`, `Resize`, `Reserve`,
`swap`, copy or move assignment, each within its precondition, whether or not an
allocation fails on the way) has `size_ <= capacity_`, a buffer of exactly
`capacity_` slots, and the null buffer when `capacity_ == 0`. -/
theorem reachable_invariant {α : Type} [Inhabited α] (v : SimpleVector α) (h : Reachable v) :
    v.size_ ≤ v.capacity_ ∧ v.items_.slots = v.capacity_ ∧
      (v.capacity_ = 0 → v.items_.raw_ptr_ = none) := by
  show Invariant v
  induction h with
  | ctor_default => exact empty_invariant
  | ctor_reserve alloc r v h => exact ofReserve_invariant alloc r v h
  | ctor_copy alloc other v _ h ih => exact copyCtor_invariant alloc other v ih h
  | ctor_move other _ ih => exact (moveCtor_invariant other ih).1
  | ctor_move_source other _ ih => exact (moveCtor_invariant other ih).2
  | ctor_size alloc size v h => exact ofSize_invariant alloc size v h
  | ctor_size_value alloc size value v h => exact ofSizeValue_invariant alloc size value v h
  | ctor_list alloc init v h => exact ofList_invariant alloc init v h
  | copy_assign alloc self rhs _ _ ih1 ih2 => exact copyAssign_invariant alloc self rhs ih1 ih2
  | move_assign self rhs _ _ _ ih2 => exact (moveAssign_invariant self rhs ih2).1
  | move_assign_source self rhs _ _ _ ih2 => exact (moveAssign_invariant self rhs ih2).2
  | push_back alloc v item _ ih => exact PushBack_invariant alloc v item ih
  | insert alloc v i x _ _ ih => exact Insert_invariant alloc v i x ih
  | pop_back v _ ih => exact PopBack_invariant v ih
  | erase v i _ _ ih => exact Erase_invariant v i ih
  | swap_self a b _ _ iha ihb => exact (swap_invariant a b iha ihb).1
  | swap_other a b _ _ iha ihb => exact (swap_invariant a b iha ihb).2
  | clear v _ ih => exact Clear_invariant v ih
  | resize alloc v m _ ih => exact Resize_invariant alloc v m ih
  | reserve alloc v r _ ih => exact Reserve_invariant alloc v r ih
  | store v i x _ _ ih => exact store_invariant v i x ih

/-- Witness for C2: the state after `PushBack(7)`, `PushBack(8)`, `Erase(begin())` and a
`Resize(5)` whose allocation fails, from the default constructor. -/
theorem reachable_invariant_witness :
    Reachable
        (Resize (fun _ => false)
          (Erase (PushBack (fun _ => true)
            (PushBack (fun _ => true) (empty : SimpleVector Nat) (ItemRef.object 7)).state
            (ItemRef.object 8)).state 0).1
          5).state ∧
      (⟨1, 2, ⟨some [8, 8]⟩⟩ : SimpleVector Nat).size_ ≤ 2 ∧
      (⟨1, 2, ⟨some [8, 8]⟩⟩ : SimpleVector Nat).items_.slots = 2 ∧
      ((2 : Nat) = 0 → (⟨some [8, 8]⟩ : ArrayPtr Nat).raw_ptr_ = none) :=
  ⟨Reachable.resize _ _ _ (Reachable.erase _ _
      (Reachable.push_back _ _ _ (Reachable.push_back _ _ _ Reachable.ctor_default))
      (by decide)),
    reachable_invariant
      (Resize (fun _ => false)
        (Erase (PushBack (fun _ => true)
          (PushBack (fun _ => true) (empty : SimpleVector Nat) (ItemRef.object 7)).state
          (ItemRef.object 8)).state 0).1
        5).state
      (Reachable.resize _ _ _ (Reachable.erase _ _
        (Reachable.push_back _ _ _ (Reachable.push_back _ _ _ Reachable.ctor_default))
        (by decide)))⟩

/-- `PushBack` of objects that are no elements of the vector, from the default-constructed
vector and with every allocation served: all the calls return and leave `GetSize() == n`
and `operator[](i) == v_i` for each `i < n`. -/
theorem pushAll_objects_from_empty {α : Type} [Inhabited α] (alloc : Nat → Bool)
    (halloc : ∀ n, alloc n = true) (vs : List α) :
    pushAll alloc empty vs = .returned () (pushAll alloc empty vs).state ∧
      GetSize (pushAll alloc empty vs).state = vs.length ∧
      ∀ (i : Nat) (hi : i < vs.length), index (pushAll alloc empty vs).state i = some vs[i] := by
  obtain ⟨h1, h2, h3, h4⟩ := pushAll_live alloc halloc vs empty empty_invariant
  refine ⟨h1, ?_, ?_⟩
  · show (pushAll alloc empty vs).state.size_ = vs.length
    rw [h3]
    show 0 + vs.length = vs.length
    omega
  · intro i hi
    rw [index_eq_live _ h2, h4]
    show ([] ++ vs)[i]? = some vs[i]
    rw [List.nil_append, List.getElem?_eq_getElem hi]

/-- C3, evaluated on the code: `v.PushBack(7); v.PushBack(v[0]);` from the empty vector.
The second call finds `size_ == capacity_ == 1`, moves to a new array of capacity 2 and
deletes the old one before `items_[size_] = item` reads `item`, which still refers to
slot 0 of the deleted array.  The element at index 1 is whatever that read yields, where
the claim requires the pushed value 7.  `Insert(end(), v[0])` on the same vector reads
the argument while the old array is alive and appends 7. -/
theorem PushBack_reads_deleted_array :
    PushBack (fun _ => true) (empty : SimpleVector Nat) (ItemRef.object 7) =
        .returned () ⟨1, 1, ⟨some [7]⟩⟩ ∧
      index (⟨1, 1, ⟨some [7]⟩⟩ : SimpleVector Nat) 0 = some 7 ∧
      (∀ dangling : Nat,
        PushBack (fun _ => true) (⟨1, 1, ⟨some [7]⟩⟩ : SimpleVector Nat)
            (ItemRef.element 0 dangling) =
          .returned () ⟨2, 2, ⟨some [7, dangling]⟩⟩) ∧
      index (⟨2, 2, ⟨some [7, 99]⟩⟩ : SimpleVector Nat) 1 ≠ some 7 ∧
      (∀ dangling : Nat,
        Insert (fun _ => true) (⟨1, 1, ⟨some [7]⟩⟩ : SimpleVector Nat) 1
            (ItemRef.element 0 dangling) =
          .returned 1 ⟨2, 2, ⟨some [7, 7]⟩⟩) :=
  ⟨rfl, rfl, fun _ => rfl, by decide, fun _ => rfl⟩

/-- C4, evaluated on the code: `v.Insert(v.begin(), v[2])` on `{1, 2, 3}` held in an array
of capacity 4, the vector three pushes leave.  The in-place path shifts the elements
with `std::move_backward` and only then reads `value` at `items_[pos_index] = value`;
slot 2 holds 2 by then, so the live sequence becomes `{2, 1, 2, 3}` where the claim
requires `{3, 1, 2, 3}`.  The growth path reads `value` before it moves the elements
from `pos` on: the same call on `{1, 2, 3}` in a full array gives `{3, 1, 2, 3}`. -/
theorem Insert_reads_shifted_slot :
    pushAll (fun _ => true) (empty : SimpleVector Nat) [1, 2, 3] =
        .returned () ⟨3, 4, ⟨some [1, 2, 3, 0]⟩⟩ ∧
      index (⟨3, 4, ⟨some [1, 2, 3, 0]⟩⟩ : SimpleVector Nat) 2 = some 3 ∧
      (∀ dangling : Nat,
        Insert (fun _ => true) (⟨3, 4, ⟨some [1, 2, 3, 0]⟩⟩ : SimpleVector Nat) 0
            (ItemRef.element 2 dangling) =
          .returned 0 ⟨4, 4, ⟨some [2, 1, 2, 3]⟩⟩) ∧
      live (⟨4, 4, ⟨some [2, 1, 2, 3]⟩⟩ : SimpleVector Nat) = [2, 1, 2, 3] ∧
      live (⟨4, 4, ⟨some [2, 1, 2, 3]⟩⟩ : SimpleVector Nat) ≠
        (live (⟨3, 4, ⟨some [1, 2, 3, 0]⟩⟩ : SimpleVector Nat)).take 0 ++
          3 :: (live (⟨3, 4, ⟨some [1, 2, 3, 0]⟩⟩ : SimpleVector Nat)).drop 0 ∧
      (∀ dangling : Nat,
        Insert (fun _ => true) (⟨3, 3, ⟨some [1, 2, 3]⟩⟩ : SimpleVector Nat) 0
            (ItemRef.element 2 dangling) =
          .returned 0 ⟨4, 6, ⟨some [3, 1, 2, 3, 0, 0]⟩⟩) :=
  ⟨rfl, rfl, fun _ => rfl, rfl, by decide, fun _ => rfl⟩

/-- C5. On a vector with live sequence `S` of length `n >= 1`, for `0 <= i < n`,
`Erase(begin() + i)` leaves the live sequence `S[0..i)`, `S[i+1..n)`, sets the size to
`n - 1`, keeps the capacity and returns the position of index `i`. -/
theorem Erase_correct {α : Type} [Inhabited α] (v : SimpleVector α) (i : Nat)
    (hinv : Invariant v) (hi : i < v.size_) :
    live (Erase v i).1 = (live v).take i ++ (live v).drop (i + 1) ∧
      (Erase v i).1.size_ = v.size_ - 1 ∧
      (Erase v i).1.capacity_ = v.capacity_ ∧
      (Erase v i).2 = i :=
  ⟨Erase_live v i hinv hi, rfl, rfl, rfl⟩

/-- Witness for C5: erasing index 1 of `{1, 9, 2, 3}`. -/
theorem Erase_correct_witness :
    live (Erase (⟨4, 4, ⟨some [1, 9, 2, 3]⟩⟩ : SimpleVector Nat) 1).1 = [1, 2, 3] ∧
      (Erase (⟨4, 4, ⟨some [1, 9, 2, 3]⟩⟩ : SimpleVector Nat) 1).1.size_ = 3 ∧
      (Erase (⟨4, 4, ⟨some [1, 9, 2, 3]⟩⟩ : SimpleVector Nat) 1).1.capacity_ = 4 ∧
      (Erase (⟨4, 4, ⟨some [1, 9, 2, 3]⟩⟩ : SimpleVector Nat) 1).2 = 1 :=
  Erase_correct ⟨4, 4, ⟨some [1, 9, 2, 3]⟩⟩ 1 ⟨by decide, rfl, by decide⟩ (by decide)

/-- C6. Inserting `x` at index `i` (`0 <= i <= size`) and then erasing index `i` gives back
the size and the live sequence the vector had, whether the insertion grew the buffer
or not, and whether `x` is an object outside the vector or one of its elements. -/
theorem Insert_Erase_roundtrip {α : Type} [Inhabited α] (alloc : Nat → Bool)
    (v : SimpleVector α) (i : Nat) (x : ItemRef α) (hinv : Invariant v) (hi : i ≤ v.size_)
    (ha : v.size_ = v.capacity_ → alloc (grown v.capacity_) = true) :
    ∃ s : SimpleVector α, Insert alloc v i x = .returned i s ∧
      (Erase s i).1.size_ = v.size_ ∧ live (Erase s i).1 = live v := by
  obtain ⟨hret, hsize, hlive⟩ := Insert_live alloc v i x hinv hi ha
  have hinv2 := Insert_invariant alloc v i x hinv
  have hlen := live_length v hinv
  refine ⟨(Insert alloc v i x).state, hret, ?_, ?_⟩
  · show (Insert alloc v i x).state.size_ - 1 = v.size_
    rw [hsize]; omega
  · rw [Erase_live _ i hinv2 (by rw [hsize]; omega), hlive]
    apply List.ext_getElem?
    intro k
    rw [getElem?_take_drop_succ, getElem?_take_cons_drop _ i _ (by omega),
      getElem?_take_cons_drop _ i _ (by omega)]
    by_cases hk : k < i
    · rw [if_pos hk, if_pos hk]
    · rw [if_neg hk, if_neg (by omega), if_neg (by omega)]
      rfl

/-- Witness for C6: a round trip through the growth path, at the end position, and one
through the in-place path with an element of the vector as argument. -/
theorem Insert_Erase_roundtrip_witness :
    (∃ s : SimpleVector Nat,
        Insert (fun _ => true) ⟨2, 2, ⟨some [1, 2]⟩⟩ 2 (ItemRef.object 9) = .returned 2 s ∧
          (Erase s 2).1.size_ = 2 ∧ live (Erase s 2).1 = [1, 2]) ∧
      (∃ s : SimpleVector Nat,
        Insert (fun _ => true) ⟨3, 4, ⟨some [1, 2, 3, 0]⟩⟩ 0 (ItemRef.element 2 0) =
            .returned 0 s ∧
          (Erase s 0).1.size_ = 3 ∧ live (Erase s 0).1 = [1, 2, 3]) :=
  ⟨Insert_Erase_roundtrip (fun _ => true) ⟨2, 2, ⟨some [1, 2]⟩⟩ 2 (ItemRef.object 9)
      ⟨by decide, rfl, by decide⟩ (by decide) (fun _ => rfl),
    Insert_Erase_roundtrip (fun _ => true) ⟨3, 4, ⟨some [1, 2, 3, 0]⟩⟩ 0 (ItemRef.element 2 0)
      ⟨by decide, rfl, by decide⟩ (by decide) (fun h => absurd h (by decide))⟩

/-- C7. `At(i)` throws `out_of_range` exactly when `i >= size_`; for `i < size_` it returns
the element `operator[](i)` returns; either way the vector is left as it was. -/
theorem At_checked {α : Type} [Inhabited α] (v : SimpleVector α) (i : Nat) :
    ((∃ s, At v i = .thrown Error.out_of_range s) ↔ v.size_ ≤ i) ∧
      (i < v.size_ → ∃ x, At v i = .returned x v ∧ index v i = some x) ∧
      (At v i).state = v := by
  unfold At index
  by_cases h : i ≥ v.size_
  · rw [if_pos h]
    refine ⟨⟨fun _ => h, fun _ => ⟨v, rfl⟩⟩, fun h2 => absurd h2 (by omega), rfl⟩
  · rw [if_neg h]
    refine ⟨⟨fun hs => ?_, fun h2 => absurd h2 h⟩, fun h2 => ?_, rfl⟩
    · obtain ⟨s, hs⟩ := hs
      cases hs
    · exact ⟨v.items_.read i, rfl, by rw [if_pos h2]⟩


/-- C8. On a vector with live sequence `S`, size `s` and capacity `c`, `Resize(m)` (its
allocation, if any, being served) leaves size `m` and the live sequence made of the
first `min(s, m)` elements of `S` followed by `m - s` default values; the capacity stays
`c` when `m <= c` and becomes `max(2 * c, m)` when `m > c`. -/
theorem Resize_correct {α : Type} [Inhabited α] (alloc : Nat → Bool) (v : SimpleVector α)
    (m : Nat) (hinv : Invariant v)
    (ha : v.capacity_ < m → alloc (max (v.capacity_ * 2) m) = true) :
    ∃ s : SimpleVector α, Resize alloc v m = .returned () s ∧ s.size_ = m ∧
      live s = (live v).take (min v.size_ m) ++ List.replicate (m - v.size_) default ∧
      (m ≤ v.capacity_ → s.capacity_ = v.capacity_) ∧
      (v.capacity_ < m → s.capacity_ = max (2 * v.capacity_) m) := by
  obtain ⟨h1, h2, h3, h4⟩ := Resize_live alloc v m hinv ha
  refine ⟨(Resize alloc v m).state, h1, h2, h3, ?_, ?_⟩
  · intro hle
    rw [h4, if_pos hle]
  · intro hgt
    rw [h4, if_neg (by omega), Nat.mul_comm]

/-- Witness for C8: the three paths of `Resize` on `{9, 2, 3}` with capacity 4. -/
theorem Resize_correct_witness :
    (∃ s : SimpleVector Nat,
        Resize (fun _ => true) ⟨3, 4, ⟨some [9, 2, 3, 7]⟩⟩ 2 = .returned () s ∧ s.size_ = 2 ∧
          live s = [9, 2] ∧ ((2 : Nat) ≤ 4 → s.capacity_ = 4) ∧
          ((4 : Nat) < 2 → s.capacity_ = max (2 * 4) 2)) ∧
      (∃ s : SimpleVector Nat,
        Resize (fun _ => true) ⟨3, 4, ⟨some [9, 2, 3, 7]⟩⟩ 4 = .returned () s ∧ s.size_ = 4 ∧
          live s = [9, 2, 3, 0] ∧ ((4 : Nat) ≤ 4 → s.capacity_ = 4) ∧
          ((4 : Nat) < 4 → s.capacity_ = max (2 * 4) 4)) ∧
      (∃ s : SimpleVector Nat,
        Resize (fun _ => true) ⟨3, 4, ⟨some [9, 2, 3, 7]⟩⟩ 9 = .returned () s ∧ s.size_ = 9 ∧
          live s = [9, 2, 3, 0, 0, 0, 0, 0, 0] ∧ ((9 : Nat) ≤ 4 → s.capacity_ = 4) ∧
          ((4 : Nat) < 9 → s.capacity_ = max (2 * 4) 9)) :=
  ⟨Resize_correct (fun _ => true) ⟨3, 4, ⟨some [9, 2, 3, 7]⟩⟩ 2
      ⟨by decide, rfl, by decide⟩ (fun _ => rfl),
    Resize_correct (fun _ => true) ⟨3, 4, ⟨some [9, 2, 3, 7]⟩⟩ 4
      ⟨by decide, rfl, by decide⟩ (fun _ => rfl),
    Resize_correct (fun _ => true) ⟨3, 4, ⟨some [9, 2, 3, 7]⟩⟩ 9
      ⟨by decide, rfl, by decide⟩ (fun _ => rfl)⟩

/-- C9. For `k < s` on a vector of size `s`, `Resize(k)` then `Resize(s)` both return and
leave size `s`, the elements at `[0, k)` as they were, and the default value at every
index of `[k, s)`: the truncated values do not come back. -/
theorem Resize_shrink_then_grow {α : Type} [Inhabited α] (alloc1 alloc2 : Nat → Bool)
    (v : SimpleVector α) (k : Nat) (hinv : Invariant v) (hk : k < v.size_) :
    ∃ s1 s2 : SimpleVector α, Resize alloc1 v k = .returned () s1 ∧
      Resize alloc2 s1 v.size_ = .returned () s2 ∧ s2.size_ = v.size_ ∧
      (∀ i, i < k → index s2 i = index v i) ∧
      (∀ i, k ≤ i → i < v.size_ → index s2 i = some default) := by
  have hcap := hinv.1
  obtain ⟨a1, a2, a3, a4⟩ := Resize_live alloc1 v k hinv (fun h => absurd h (by omega))
  have hinv1 := Resize_invariant alloc1 v k hinv
  have hcap1 : (Resize alloc1 v k).state.capacity_ = v.capacity_ := by
    rw [a4, if_pos (by omega)]
  obtain ⟨b1, b2, b3, _⟩ := Resize_live alloc2 (Resize alloc1 v k).state v.size_ hinv1
    (fun h => absurd h (by omega))
  have hinv2 := Resize_invariant alloc2 (Resize alloc1 v k).state v.size_ hinv1
  have hlen := live_length v hinv
  have hlive : ∀ i, (live (Resize alloc2 (Resize alloc1 v k).state v.size_).state)[i]? =
      if i < k then (live v)[i]? else if i < v.size_ then some default else none := by
    intro i
    have hl1 : live (Resize alloc1 v k).state = (live v).take k := by
      rw [a3, Nat.min_eq_right (Nat.le_of_lt hk), Nat.sub_eq_zero_of_le (Nat.le_of_lt hk),
        List.replicate_zero, List.append_nil]
    have hl2 : live (Resize alloc2 (Resize alloc1 v k).state v.size_).state =
        (live v).take k ++ List.replicate (v.size_ - k) default := by
      rw [b3, a2, hl1, Nat.min_eq_left (Nat.le_of_lt hk), List.take_take, Nat.min_self]
    rw [hl2, getElem?_take_append_replicate _ k _ _ (by omega)]
    by_cases h1 : i < k
    · rw [if_pos h1, if_pos h1]
    · rw [if_neg h1, if_neg h1]
      by_cases h2 : i < v.size_
      · rw [if_pos h2, if_pos (by omega)]
      · rw [if_neg h2, if_neg (by omega)]
  refine ⟨_, _, a1, b1, b2, ?_, ?_⟩
  · intro i hi
    rw [index_eq_live _ hinv2, index_eq_live _ hinv, hlive, if_pos hi]
  · intro i h1 h2
    rw [index_eq_live _ hinv2, hlive, if_neg (by omega), if_pos h2]

/-- Witness for C9: `{5, 6, 7}` resized to 1 and back to 3 reads `{5, 0, 0}`. -/
theorem Resize_shrink_then_grow_witness :
    ∃ s1 s2 : SimpleVector Nat,
      Resize (fun _ => false) ⟨3, 3, ⟨some [5, 6, 7]⟩⟩ 1 = .returned () s1 ∧
        Resize (fun _ => false) s1 3 = .returned () s2 ∧ s2.size_ = 3 ∧
        (∀ i, i < 1 → index s2 i = index (⟨3, 3, ⟨some [5, 6, 7]⟩⟩ : SimpleVector Nat) i) ∧
        (∀ i, 1 ≤ i → i < 3 → index s2 i = some 0) :=
  Resize_shrink_then_grow (fun _ => false) (fun _ => false) ⟨3, 3, ⟨some [5, 6, 7]⟩⟩ 1
    ⟨by decide, rfl, by decide⟩ (by decide)

/-- C10. `Reserve(r)` with `r > capacity_` (the allocation being served) sets the capacity
to exactly `r` and keeps the size and every live element; with `r <= capacity_` it
leaves size, capacity and buffer as they were. -/
theorem Reserve_correct {α : Type} [Inhabited α] (alloc : Nat → Bool) (v : SimpleVector α)
    (r : Nat) (hinv : Invariant v) :
    (v.capacity_ < r → alloc r = true →
        ∃ s : SimpleVector α, Reserve alloc v r = .returned () s ∧ s.capacity_ = r ∧
          s.size_ = v.size_ ∧ live s = live v) ∧
      (r ≤ v.capacity_ → Reserve alloc v r = .returned () v) :=
  ⟨fun hgt ha => ⟨(Reserve alloc v r).state, Reserve_live alloc v r hinv hgt ha⟩,
    fun hle => Reserve_noop alloc v r hle⟩

/-- Witness for C10: `{1, 2}` with capacity 2, reserving 5 and reserving 1. -/
theorem Reserve_correct_witness :
    (∃ s : SimpleVector Nat,
        Reserve (fun _ => true) ⟨2, 2, ⟨some [1, 2]⟩⟩ 5 = .returned () s ∧ s.capacity_ = 5 ∧
          s.size_ = 2 ∧ live s = [1, 2]) ∧
      Reserve (fun _ => true) (⟨2, 2, ⟨some [1, 2]⟩⟩ : SimpleVector Nat) 1 =
        .returned () ⟨2, 2, ⟨some [1, 2]⟩⟩ :=
  ⟨(Reserve_correct (fun _ => true) ⟨2, 2, ⟨some [1, 2]⟩⟩ 5 ⟨by decide, rfl, by decide⟩).1
      (by decide) rfl,
    (Reserve_correct (fun _ => true) ⟨2, 2, ⟨some [1, 2]⟩⟩ 1 ⟨by decide, rfl, by decide⟩).2
      (by decide)⟩

end SimpleVector

/-! ## Growth policy, moves and copies, comparisons, allocation failure -/

namespace SimpleVector

theorem grown_eq_max (c : Nat) : grown c = max 1 (2 * c) := by
  unfold grown
  split
  · rename_i h; subst h; rfl
  · rw [Nat.max_eq_right (by omega), Nat.mul_comm]

theorem PushBack_capacity {α : Type} [Inhabited α] (alloc : Nat → Bool) (v : SimpleVector α)
    (x : ItemRef α) (ha : v.size_ = v.capacity_ → alloc (grown v.capacity_) = true) :
    (PushBack alloc v x).state.capacity_ =
      if v.size_ = v.capacity_ then grown v.capacity_ else v.capacity_ := by
  by_cases hfull : v.size_ = v.capacity_
  · rw [PushBack_grow alloc v x hfull (ha hfull), if_pos hfull]
    rfl
  · rw [PushBack_inplace alloc v x hfull, if_neg hfull]
    rfl

/-- C11. `PushBack` on a vector of size `s` and capacity `c` (the allocation, if any, being
served) returns with capacity `max(1, 2 * c)` when `s == c` and with capacity `c` when
`s < c`; either way the elements that were live at `[0, s)` keep their values and order.
This holds for every argument, an element of the vector itself included: the capacity
and the old elements do not depend on what the read of the argument yields. -/
theorem PushBack_growth_policy {α : Type} [Inhabited α] (alloc : Nat → Bool)
    (v : SimpleVector α) (x : ItemRef α) (hinv : Invariant v)
    (ha : v.size_ = v.capacity_ → alloc (grown v.capacity_) = true) :
    ∃ s : SimpleVector α, PushBack alloc v x = .returned () s ∧
      (v.size_ = v.capacity_ → s.capacity_ = max 1 (2 * v.capacity_)) ∧
      (v.size_ < v.capacity_ → s.capacity_ = v.capacity_) ∧
      (live s).take v.size_ = live v ∧
      (∀ i, i < v.size_ → index s i = index v i) := by
  obtain ⟨hret, hsize, hlive⟩ := PushBack_live alloc v x hinv ha
  have hcap := PushBack_capacity alloc v x ha
  have hinv2 := PushBack_invariant alloc v x hinv
  have hlen := live_length v hinv
  refine ⟨(PushBack alloc v x).state, hret, ?_, ?_, ?_, ?_⟩
  · intro hfull
    rw [hcap, if_pos hfull, grown_eq_max]
  · intro hroom
    rw [hcap, if_neg (by omega)]
  · rw [hlive, List.take_append_of_le_length (by omega), List.take_of_length_le (by omega)]
  · intro i hi
    rw [index_eq_live _ hinv2, index_eq_live _ hinv, hlive,
      List.getElem?_append_left (by omega)]

/-- Witness for C11: a push into a full buffer of capacity 2 and a push of the element
at index 0 into a buffer with room. -/
theorem PushBack_growth_policy_witness :
    (∃ s : SimpleVector Nat,
        PushBack (fun _ => true) ⟨2, 2, ⟨some [1, 2]⟩⟩ (ItemRef.object 3) = .returned () s ∧
        ((2 : Nat) = 2 → s.capacity_ = max 1 (2 * 2)) ∧ ((2 : Nat) < 2 → s.capacity_ = 2) ∧
        (live s).take 2 = [1, 2] ∧
        (∀ i, i < 2 → index s i = index (⟨2, 2, ⟨some [1, 2]⟩⟩ : SimpleVector Nat) i)) ∧
      (∃ s : SimpleVector Nat,
        PushBack (fun _ => false) ⟨1, 2, ⟨some [1, 7]⟩⟩ (ItemRef.element 0 5) = .returned () s ∧
        ((1 : Nat) = 2 → s.capacity_ = max 1 (2 * 2)) ∧ ((1 : Nat) < 2 → s.capacity_ = 2) ∧
        (live s).take 1 = [1] ∧
        (∀ i, i < 1 → index s i = index (⟨1, 2, ⟨some [1, 7]⟩⟩ : SimpleVector Nat) i)) :=
  ⟨PushBack_growth_policy (fun _ => true) ⟨2, 2, ⟨some [1, 2]⟩⟩ (ItemRef.object 3)
      ⟨by decide, rfl, by decide⟩ (fun _ => rfl),
    PushBack_growth_policy (fun _ => false) ⟨1, 2, ⟨some [1, 7]⟩⟩ (ItemRef.element 0 5)
      ⟨by decide, rfl, by decide⟩ (fun h => absurd h (by decide))⟩

/-- C12. After the move constructor `b(std::move(a))`, and after the move assignment
`b = std::move(a)` into a different object `b`, the source `a` has size 0, capacity 0
and the null buffer, and `b` has the size, the capacity, the buffer and so the live
elements `a` had. -/
theorem move_leaves_source_empty {α : Type} (a b : SimpleVector α) :
    ((moveCtor a).2.size_ = 0 ∧ (moveCtor a).2.capacity_ = 0 ∧
        (moveCtor a).2.items_.raw_ptr_ = none) ∧
      ((moveCtor a).1 = a ∧ (moveCtor a).1.size_ = a.size_ ∧
        (moveCtor a).1.capacity_ = a.capacity_ ∧ live (moveCtor a).1 = live a) ∧
      ((moveAssign b a).2.size_ = 0 ∧ (moveAssign b a).2.capacity_ = 0 ∧
        (moveAssign b a).2.items_.raw_ptr_ = none) ∧
      ((moveAssign b a).1 = a ∧ (moveAssign b a).1.size_ = a.size_ ∧
        (moveAssign b a).1.capacity_ = a.capacity_ ∧ live (moveAssign b a).1 = live a) :=
  ⟨⟨rfl, rfl, rfl⟩, ⟨rfl, rfl, rfl, rfl⟩, ⟨rfl, rfl, rfl⟩, ⟨rfl, rfl, rfl, rfl⟩⟩

/-- C17. The scenario on integers, every allocation served: three pushes from the empty
vector give size 3, capacity 4 and `{1, 2, 3}`; `Insert` of 9 at index 1 gives
`{1, 9, 2, 3}` and size 4; `Erase` at index 0 gives `{9, 2, 3}` and size 3; `Resize(5)`
gives `{9, 2, 3, 0, 0}` and size 5; `At(10)` then throws `out_of_range`. -/
theorem concrete_scenario :
    pushAll (fun _ => true) (empty : SimpleVector Int) [1, 2, 3] =
        .returned () ⟨3, 4, ⟨some [1, 2, 3, 0]⟩⟩ ∧
      GetSize (⟨3, 4, ⟨some [1, 2, 3, 0]⟩⟩ : SimpleVector Int) = 3 ∧
      3 ≤ GetCapacity (⟨3, 4, ⟨some [1, 2, 3, 0]⟩⟩ : SimpleVector Int) ∧
      live (⟨3, 4, ⟨some [1, 2, 3, 0]⟩⟩ : SimpleVector Int) = [1, 2, 3] ∧
      Insert (fun _ => true) (⟨3, 4, ⟨some [1, 2, 3, 0]⟩⟩ : SimpleVector Int) 1
          (ItemRef.object 9) =
        .returned 1 ⟨4, 4, ⟨some [1, 9, 2, 3]⟩⟩ ∧
      live (⟨4, 4, ⟨some [1, 9, 2, 3]⟩⟩ : SimpleVector Int) = [1, 9, 2, 3] ∧
      Erase (⟨4, 4, ⟨some [1, 9, 2, 3]⟩⟩ : SimpleVector Int) 0 =
        (⟨3, 4, ⟨some [9, 2, 3, 3]⟩⟩, 0) ∧
      live (⟨3, 4, ⟨some [9, 2, 3, 3]⟩⟩ : SimpleVector Int) = [9, 2, 3] ∧
      Resize (fun _ => true) (⟨3, 4, ⟨some [9, 2, 3, 3]⟩⟩ : SimpleVector Int) 5 =
        .returned () ⟨5, 8, ⟨some [9, 2, 3, 0, 0, 0, 0, 0]⟩⟩ ∧
      live (⟨5, 8, ⟨some [9, 2, 3, 0, 0, 0, 0, 0]⟩⟩ : SimpleVector Int) = [9, 2, 3, 0, 0] ∧
      At (⟨5, 8, ⟨some [9, 2, 3, 0, 0, 0, 0, 0]⟩⟩ : SimpleVector Int) 10 =
        .thrown Error.out_of_range ⟨5, 8, ⟨some [9, 2, 3, 0, 0, 0, 0, 0]⟩⟩ :=
  ⟨rfl, rfl, by decide, rfl, rfl, rfl, rfl, rfl, rfl, rfl, rfl⟩


theorem copyCtor_fail {α : Type} [Inhabited α] (alloc : Nat → Bool) (rhs : SimpleVector α)
    (h0 : rhs.capacity_ ≠ 0) (ha : alloc rhs.capacity_ = false) :
    copyCtor alloc rhs = .error Error.bad_alloc := by
  unfold copyCtor
  rw [ArrayPtr.ofSize_fail alloc rhs.capacity_ h0 ha]

/-- C18. When the `new[]` of the new buffer fails inside `PushBack`, `Insert`, `Resize`,
`Reserve` or the copy assignment, the call throws `bad_alloc` and leaves the vector
with the size, the capacity and the buffer it had before the call; and a throw of any
of the five never leaves another state. -/
theorem bad_alloc_leaves_state {α : Type} [Inhabited α] (alloc : Nat → Bool)
    (v rhs : SimpleVector α) (x : ItemRef α) (i m r : Nat) :
    ((v.size_ = v.capacity_ → alloc (grown v.capacity_) = false →
          PushBack alloc v x = .thrown Error.bad_alloc v) ∧
        (v.size_ = v.capacity_ → alloc (grown v.capacity_) = false →
          Insert alloc v i x = .thrown Error.bad_alloc v) ∧
        (v.size_ < m → v.capacity_ < m → alloc (max (v.capacity_ * 2) m) = false →
          Resize alloc v m = .thrown Error.bad_alloc v) ∧
        (v.capacity_ < r → alloc r = false →
          Reserve alloc v r = .thrown Error.bad_alloc v) ∧
        (rhs.capacity_ ≠ 0 → alloc rhs.capacity_ = false →
          copyAssign alloc v rhs = .thrown Error.bad_alloc v)) ∧
      ((∀ e s, PushBack alloc v x = .thrown e s → e = Error.bad_alloc ∧ s = v) ∧
        (∀ e s, Insert alloc v i x = .thrown e s → e = Error.bad_alloc ∧ s = v) ∧
        (∀ e s, Resize alloc v m = .thrown e s → e = Error.bad_alloc ∧ s = v) ∧
        (∀ e s, Reserve alloc v r = .thrown e s → e = Error.bad_alloc ∧ s = v) ∧
        (∀ e s, copyAssign alloc v rhs = .thrown e s → e = Error.bad_alloc ∧ s = v)) := by
  have hfail : ∀ n : Nat, ∀ e : Error,
      (ArrayPtr.ofSize alloc n : Except Error (ArrayPtr α)) = .error e → e = Error.bad_alloc := by
    intro n e h
    unfold ArrayPtr.ofSize at h
    split at h
    · cases h
    · split at h
      · cases h
      · cases h; rfl
  refine ⟨⟨?_, ?_, ?_, ?_, ?_⟩, ⟨?_, ?_, ?_, ?_, ?_⟩⟩
  · intro hfull ha
    unfold PushBack
    rw [if_pos hfull]
    simp only [ArrayPtr.ofSize_fail alloc (grown v.capacity_) (grown_ne_zero _) ha]
  · intro hfull ha
    unfold Insert
    rw [if_pos hfull]
    simp only [ArrayPtr.ofSize_fail alloc (grown v.capacity_) (grown_ne_zero _) ha]
  · intro h1 h2 ha
    have hN : max (v.capacity_ * 2) m ≠ 0 := by
      have := Nat.le_max_right (v.capacity_ * 2) m
      omega
    unfold Resize
    rw [if_neg (by omega), if_neg (by omega)]
    simp only [ArrayPtr.ofSize_fail alloc _ hN ha]
  · intro h1 ha
    unfold Reserve
    rw [if_pos h1]
    simp only [ArrayPtr.ofSize_fail alloc r (by omega) ha]
  · intro h0 ha
    unfold copyAssign
    rw [copyCtor_fail alloc rhs h0 ha]
  · intro e s h
    unfold PushBack at h
    split at h
    · dsimp only at h
      split at h
      · rename_i e2 he
        cases h
        exact ⟨hfail _ _ he, rfl⟩
      · cases h
    · cases h
  · intro e s h
    unfold Insert at h
    split at h
    · dsimp only at h
      split at h
      · rename_i e2 he
        cases h
        exact ⟨hfail _ _ he, rfl⟩
      · cases h
    · cases h
  · intro e s h
    unfold Resize at h
    split at h
    · cases h
    · split at h
      · cases h
      · dsimp only at h
        split at h
        · rename_i e2 he
          cases h
          exact ⟨hfail _ _ he, rfl⟩
        · cases h
  · intro e s h
    unfold Reserve at h
    split at h
    · split at h
      · rename_i e2 he
        cases h
        exact ⟨hfail _ _ he, rfl⟩
      · cases h
    · cases h
  · intro e s h
    unfold copyAssign at h
    split at h
    · rename_i e2 he
      cases h
      refine ⟨?_, rfl⟩
      unfold copyCtor at he
      split at he
      · rename_i e3 he3
        cases he
        exact hfail _ _ he3
      · cases he
    · cases h

/-- Witness for C18: the five calls on `{1, 2}` with capacity 2 under an allocator that
serves nothing. -/
theorem bad_alloc_leaves_state_witness :
    PushBack (fun _ => false) (⟨2, 2, ⟨some [1, 2]⟩⟩ : SimpleVector Nat) (ItemRef.object 3) =
        .thrown Error.bad_alloc ⟨2, 2, ⟨some [1, 2]⟩⟩ ∧
      Insert (fun _ => false) (⟨2, 2, ⟨some [1, 2]⟩⟩ : SimpleVector Nat) 1 (ItemRef.object 3) =
        .thrown Error.bad_alloc ⟨2, 2, ⟨some [1, 2]⟩⟩ ∧
      Resize (fun _ => false) (⟨2, 2, ⟨some [1, 2]⟩⟩ : SimpleVector Nat) 7 =
        .thrown Error.bad_alloc ⟨2, 2, ⟨some [1, 2]⟩⟩ ∧
      Reserve (fun _ => false) (⟨2, 2, ⟨some [1, 2]⟩⟩ : SimpleVector Nat) 7 =
        .thrown Error.bad_alloc ⟨2, 2, ⟨some [1, 2]⟩⟩ ∧
      copyAssign (fun _ => false) (⟨2, 2, ⟨some [1, 2]⟩⟩ : SimpleVector Nat)
          ⟨1, 1, ⟨some [5]⟩⟩ =
        .thrown Error.bad_alloc ⟨2, 2, ⟨some [1, 2]⟩⟩ :=
  ⟨(bad_alloc_leaves_state (fun _ => false) ⟨2, 2, ⟨some [1, 2]⟩⟩ ⟨1, 1, ⟨some [5]⟩⟩
      (ItemRef.object 3) 1 7 7).1.1 rfl rfl,
    (bad_alloc_leaves_state (fun _ => false) ⟨2, 2, ⟨some [1, 2]⟩⟩ ⟨1, 1, ⟨some [5]⟩⟩
      (ItemRef.object 3) 1 7 7).1.2.1 rfl rfl,
    (bad_alloc_leaves_state (fun _ => false) ⟨2, 2, ⟨some [1, 2]⟩⟩ ⟨1, 1, ⟨some [5]⟩⟩
      (ItemRef.object 3) 1 7 7).1.2.2.1 (by decide) (by decide) rfl,
    (bad_alloc_leaves_state (fun _ => false) ⟨2, 2, ⟨some [1, 2]⟩⟩ ⟨1, 1, ⟨some [5]⟩⟩
      (ItemRef.object 3) 1 7 7).1.2.2.2.1 (by decide) rfl,
    (bad_alloc_leaves_state (fun _ => false) ⟨2, 2, ⟨some [1, 2]⟩⟩ ⟨1, 1, ⟨some [5]⟩⟩
      (ItemRef.object 3) 1 7 7).1.2.2.2.2 (by decide) rfl⟩

end SimpleVector

namespace ArrayPtr

theorem ofSize_succeeds {α : Type} [Inhabited α] (alloc : Nat → Bool) (n : Nat)
    (h : n ≠ 0 → alloc n = true) : ∃ p : ArrayPtr α, ofSize alloc n = .ok p := by
  by_cases hn : n = 0
  · subst hn
    exact ⟨_, ofSize_zero alloc⟩
  · exact ⟨_, ofSize_pos alloc n hn (h hn)⟩

end ArrayPtr

namespace SimpleVector

theorem copyCtor_live {α : Type} [Inhabited α] (alloc : Nat → Bool) (src c : SimpleVector α)
    (hinv : Invariant src) (h : copyCtor alloc src = .ok c) :
    c.size_ = src.size_ ∧ c.capacity_ = src.capacity_ ∧ live c = live src := by
  have hlen := cells_length_of_invariant src hinv
  have hcap := hinv.1
  unfold copyCtor at h
  split at h
  · cases h
  · rename_i items hitems
    injection h with h
    subst h
    refine ⟨rfl, rfl, ?_⟩
    obtain ⟨_, _, hcells⟩ := ArrayPtr.ofSize_ok alloc _ items hitems
    simp only [live]
    rw [ArrayPtr.cells_onCells _ _ (fun l => std_copy_length _ _ _ _ _), hcells]
    exact reserve_cells src.items_.cells src.size_ src.capacity_ (by omega) hcap

theorem copyCtor_succeeds {α : Type} [Inhabited α] (alloc : Nat → Bool) (src : SimpleVector α)
    (ha : src.capacity_ ≠ 0 → alloc src.capacity_ = true) :
    ∃ c : SimpleVector α, copyCtor alloc src = .ok c := by
  have hex : ∃ p : ArrayPtr α, ArrayPtr.ofSize alloc src.capacity_ = .ok p :=
    ArrayPtr.ofSize_succeeds alloc src.capacity_ ha
  obtain ⟨p, hp⟩ := hex
  unfold copyCtor
  rw [hp]
  exact ⟨_, rfl⟩

/-- C13. A copy of `src`, made by the copy constructor or by copy assignment into any
other vector `dst` (the allocation being served), has the size and the capacity of
`src` and the same live elements in the same order, and compares equal to `src` with
`operator==` in both argument orders.  `src` is taken by reference to const: no call
writes to it. -/
theorem copy_mirrors_source {α : Type} [Inhabited α] [DecidableEq α] (alloc : Nat → Bool)
    (src dst : SimpleVector α) (hinv : Invariant src)
    (ha : src.capacity_ ≠ 0 → alloc src.capacity_ = true) :
    ∃ c : SimpleVector α, copyCtor alloc src = .ok c ∧
      copyAssign alloc dst src = .returned () c ∧
      c.size_ = src.size_ ∧ c.capacity_ = src.capacity_ ∧ live c = live src ∧
      eq c src = true ∧ eq src c = true := by
  obtain ⟨c, hc⟩ := copyCtor_succeeds alloc src ha
  obtain ⟨h1, h2, h3⟩ := copyCtor_live alloc src c hinv hc
  have hinvc := copyCtor_invariant alloc src c hinv hc
  refine ⟨c, hc, ?_, h1, h2, h3, ?_, ?_⟩
  · unfold copyAssign
    rw [hc]
    rfl
  · exact (eq_iff_live_of_size_eq c src hinvc hinv h1).2 h3
  · exact (eq_iff_live_of_size_eq src c hinv hinvc h1.symm).2 h3.symm

/-- Witness for C13: copying `{4, 5}` held in a buffer of capacity 3, into a new object and
over the vector `{9}`. -/
theorem copy_mirrors_source_witness :
    ∃ c : SimpleVector Nat, copyCtor (fun _ => true) ⟨2, 3, ⟨some [4, 5, 6]⟩⟩ = .ok c ∧
      copyAssign (fun _ => true) ⟨1, 1, ⟨some [9]⟩⟩ ⟨2, 3, ⟨some [4, 5, 6]⟩⟩ = .returned () c ∧
      c.size_ = 2 ∧ c.capacity_ = 3 ∧ live c = [4, 5] ∧
      eq c ⟨2, 3, ⟨some [4, 5, 6]⟩⟩ = true ∧ eq ⟨2, 3, ⟨some [4, 5, 6]⟩⟩ c = true :=
  copy_mirrors_source (fun _ => true) ⟨2, 3, ⟨some [4, 5, 6]⟩⟩ ⟨1, 1, ⟨some [9]⟩⟩
    ⟨by decide, rfl, by decide⟩ (fun _ => rfl)


/-- A run of `PushBack` calls that fits in the capacity at hand never allocates. -/
theorem pushAll_room {α : Type} [Inhabited α] (alloc : Nat → Bool) (xs : List α) :
    ∀ v : SimpleVector α, Invariant v → v.size_ + xs.length ≤ v.capacity_ →
      pushAll alloc v xs = .returned () (pushAll alloc v xs).state ∧
        Invariant (pushAll alloc v xs).state ∧
        (pushAll alloc v xs).state.size_ = v.size_ + xs.length ∧
        (pushAll alloc v xs).state.capacity_ = v.capacity_ ∧
        live (pushAll alloc v xs).state = live v ++ xs := by
  induction xs with
  | nil =>
    intro v hv _
    exact ⟨rfl, hv, rfl, rfl, by simp [pushAll, Outcome.state]⟩
  | cons x xs ih =>
    intro v hv hroom
    rw [List.length_cons] at hroom
    have hne : v.size_ ≠ v.capacity_ := by omega
    have hnf : v.size_ = v.capacity_ → alloc (grown v.capacity_) = true :=
      fun h => absurd h hne
    obtain ⟨hret, hsize, hlive⟩ := PushBack_object_live alloc v x hv hnf
    have hcap : (PushBack alloc v (ItemRef.object x)).state.capacity_ = v.capacity_ := by
      rw [PushBack_capacity alloc v (ItemRef.object x) hnf, if_neg hne]
    have hinv := PushBack_invariant alloc v (ItemRef.object x) hv
    obtain ⟨r1, r2, r3, r4, r5⟩ := ih (PushBack alloc v (ItemRef.object x)).state hinv (by omega)
    have hstep : pushAll alloc v (x :: xs) = pushAll alloc (PushBack alloc v (ItemRef.object x)).state xs := by
      show (PushBack alloc v (ItemRef.object x)).andThen _ = _
      rw [hret]
      rfl
    rw [hstep]
    refine ⟨r1, r2, ?_, ?_, ?_⟩
    · rw [r3, hsize, List.length_cons]; omega
    · rw [r4, hcap]
    · rw [r5, hlive, List.append_assoc]; rfl

theorem ofList_ok {α : Type} [Inhabited α] (alloc : Nat → Bool) (init : List α)
    (ha : init.length ≠ 0 → alloc init.length = true) :
    ∃ v : SimpleVector α, ofList alloc init = .ok v ∧ v.size_ = init.length ∧
      v.capacity_ = init.length ∧ live v = init := by
  have hex : ∃ p : ArrayPtr α, ArrayPtr.ofSize alloc init.length = .ok p :=
    ArrayPtr.ofSize_succeeds alloc init.length ha
  obtain ⟨p, hp⟩ := hex
  obtain ⟨_, _, hcells⟩ := ArrayPtr.ofSize_ok alloc _ p hp
  refine ⟨⟨init.length, init.length,
    p.onCells (fun t => std_copy init 0 init.length t 0)⟩, ?_, rfl, rfl, ?_⟩
  · unfold ofList
    rw [hp]
  · simp only [live]
    rw [ArrayPtr.cells_onCells _ _ (fun l => std_copy_length _ _ _ _ _), hcells]
    have := reserve_cells init init.length init.length (Nat.le_refl _) (Nat.le_refl _)
    rw [List.take_of_length_le (Nat.le_refl _)] at this
    exact this

end SimpleVector

theorem ofReserve_Reserve_ok {α : Type} [Inhabited α] (alloc : Nat → Bool) (c : Nat)
    (ha : c ≠ 0 → alloc c = true) :
    ∃ v : SimpleVector α, SimpleVector.ofReserve alloc (Reserve c) = .ok v ∧ v.size_ = 0 ∧
      v.capacity_ = c := by
  have hex : ∃ p : ArrayPtr α, ArrayPtr.ofSize alloc c = .ok p :=
    ArrayPtr.ofSize_succeeds alloc c ha
  obtain ⟨p, hp⟩ := hex
  refine ⟨⟨0, c, p⟩, ?_, rfl, rfl⟩
  unfold SimpleVector.ofReserve
  show (match ArrayPtr.ofSize alloc c with
    | .error e => .error e
    | .ok items => .ok ⟨0, c, items⟩ : Except Error (SimpleVector α)) = _
  rw [hp]

/-- C14. For every sequence `L` and every capacity `c >= length(L)`, the vector built by
`SimpleVector(Reserve(c))` followed by `PushBack` of the elements of `L` in order, and
the vector built from the initializer list `L`, compare equal with `operator==` in
both argument orders, whatever their capacities `c` and `length(L)`. -/
theorem reserved_then_filled_eq_literal {α : Type} [Inhabited α] [DecidableEq α]
    (alloc : Nat → Bool) (L : List α) (c : Nat) (hc : L.length ≤ c)
    (ha : c ≠ 0 → alloc c = true) (hl : L.length ≠ 0 → alloc L.length = true) :
    ∃ r0 r w : SimpleVector α, SimpleVector.ofReserve alloc (Reserve c) = .ok r0 ∧
      SimpleVector.pushAll alloc r0 L = .returned () r ∧
      SimpleVector.ofList alloc L = .ok w ∧
      r.capacity_ = c ∧ w.capacity_ = L.length ∧
      SimpleVector.eq r w = true ∧ SimpleVector.eq w r = true := by
  have hex : ∃ v : SimpleVector α, SimpleVector.ofReserve alloc (Reserve c) = .ok v ∧
      v.size_ = 0 ∧ v.capacity_ = c := ofReserve_Reserve_ok alloc c ha
  obtain ⟨r0, h0, hs0, hc0⟩ := hex
  have hinv0 : SimpleVector.Invariant r0 := SimpleVector.ofReserve_invariant alloc _ r0 h0
  obtain ⟨p1, p2, p3, p4, p5⟩ := SimpleVector.pushAll_room alloc L r0 hinv0 (by omega)
  obtain ⟨w, hw, hws, hwc, hwl⟩ := SimpleVector.ofList_ok alloc L hl
  have hinvw : SimpleVector.Invariant w := SimpleVector.ofList_invariant alloc L w hw
  have hlive0 : SimpleVector.live r0 = [] := by
    unfold SimpleVector.live
    rw [hs0]
    rfl
  have hlive : SimpleVector.live (SimpleVector.pushAll alloc r0 L).state = SimpleVector.live w := by
    rw [p5, hlive0, hwl]
    rfl
  have hsize : (SimpleVector.pushAll alloc r0 L).state.size_ = w.size_ := by
    rw [p3, hs0, hws]
    omega
  refine ⟨r0, (SimpleVector.pushAll alloc r0 L).state, w, h0, p1, hw, ?_, hwc, ?_, ?_⟩
  · rw [p4, hc0]
  · exact (SimpleVector.eq_iff_live_of_size_eq _ w p2 hinvw hsize).2 hlive
  · exact (SimpleVector.eq_iff_live_of_size_eq w _ hinvw p2 hsize.symm).2 hlive.symm

/-- Witness for C14: `{1, 2, 3}` pushed into a vector reserved for 10 against the literal
`{1, 2, 3}` of capacity 3. -/
theorem reserved_then_filled_eq_literal_witness :
    ∃ r0 r w : SimpleVector Nat,
      SimpleVector.ofReserve (fun _ => true) (Reserve 10) = .ok r0 ∧
        SimpleVector.pushAll (fun _ => true) r0 [1, 2, 3] = .returned () r ∧
        SimpleVector.ofList (fun _ => true) [1, 2, 3] = .ok w ∧
        r.capacity_ = 10 ∧ w.capacity_ = 3 ∧
        SimpleVector.eq r w = true ∧ SimpleVector.eq w r = true :=
  reserved_then_filled_eq_literal (fun _ => true) [1, 2, 3] 10 (by decide)
    (fun _ => rfl) (fun _ => rfl)

theorem drop_take_cons {α : Type} [Inhabited α] (a : List α) (last first : Nat)
    (h1 : first < last) (h2 : last ≤ a.length) :
    (a.take last).drop first = a.getD first default :: (a.take last).drop (first + 1) := by
  have hlen : first < (a.take last).length := by rw [List.length_take]; omega
  rw [List.drop_eq_getElem_cons hlen, List.getElem_take, List.getD_eq_getElem a default (by omega)]

theorem drop_take_nil {α : Type} (a : List α) (last : Nat) : (a.take last).drop last = [] := by
  apply List.drop_eq_nil_of_le
  rw [List.length_take]
  omega

/-- The loop of `std::lexicographical_compare` decides the lexicographic order of the two
ranges it is given. -/
theorem lex_loop_iff {α : Type} [Inhabited α] [LinearOrder α] (a b : List α)
    (last1 last2 : Nat) (h1 : last1 ≤ a.length) (h2 : last2 ≤ b.length) :
    ∀ (n first1 first2 : Nat), first1 + n = last1 → first2 ≤ last2 →
      (lex_loop a b last1 last2 n first1 first2 = true ↔
        List.Lex (fun x y : α => x < y) ((a.take last1).drop first1)
          ((b.take last2).drop first2)) := by
  intro n
  induction n with
  | zero =>
    intro first1 first2 hf1 hf2
    have e1 : first1 = last1 := by omega
    subst e1
    rw [drop_take_nil]
    by_cases e2 : first2 = last2
    · subst e2
      rw [drop_take_nil]
      simp [lex_loop, List.Lex.not_nil_right]
    · rw [drop_take_cons b last2 first2 (by omega) h2]
      simp [lex_loop, e2, List.Lex.nil]
  | succ n ih =>
    intro first1 first2 hf1 hf2
    have hlt1 : first1 < last1 := by omega
    rw [drop_take_cons a last1 first1 hlt1 h1]
    by_cases e2 : first2 = last2
    · subst e2
      rw [drop_take_nil]
      have hne : first1 ≠ last1 := by omega
      simp [lex_loop, hne, List.Lex.not_nil_right]
    · rw [drop_take_cons b last2 first2 (by omega) h2]
      have hne : first1 ≠ last1 := by omega
      have hcond : first1 ≠ last1 ∧ first2 ≠ last2 := ⟨hne, e2⟩
      simp only [lex_loop, if_pos hcond]
      have ih2 := ih (first1 + 1) (first2 + 1) (by omega) (by omega)
      generalize lex_loop a b last1 last2 n (first1 + 1) (first2 + 1) = r at ih2 ⊢
      generalize a.getD first1 default = x
      generalize b.getD first2 default = y
      generalize List.drop (first1 + 1) (List.take last1 a) = l1 at ih2 ⊢
      generalize List.drop (first2 + 1) (List.take last2 b) = l2 at ih2 ⊢
      by_cases hxy : x < y
      · rw [if_pos hxy]
        exact ⟨fun _ => List.Lex.rel hxy, fun _ => rfl⟩
      · rw [if_neg hxy]
        by_cases hyx : y < x
        · rw [if_pos hyx]
          constructor
          · intro h; cases h
          · intro h
            cases h with
            | cons h' => exact absurd hyx (lt_irrefl _)
            | rel h' => exact absurd h' hxy
        · rw [if_neg hyx]
          have heq : x = y := le_antisymm (not_lt.mp hyx) (not_lt.mp hxy)
          subst heq
          rw [ih2]
          exact List.Lex.cons_iff.symm

namespace SimpleVector

theorem lt_iff_lex {α : Type} [Inhabited α] [LinearOrder α] (a b : SimpleVector α)
    (ha : Invariant a) (hb : Invariant b) :
    lt a b = true ↔ List.Lex (fun x y : α => x < y) (live a) (live b) := by
  have hla := cells_length_of_invariant a ha
  have hlb := cells_length_of_invariant b hb
  have h1 := ha.1
  have h2 := hb.1
  unfold lt std_lexicographical_compare
  rw [lex_loop_iff a.items_.cells b.items_.cells a.size_ b.size_ (by omega) (by omega)
    (a.size_ - 0) 0 0 (by omega) (by omega)]
  rfl


/-- C15. On two vectors over a totally ordered element type, `a < b` is `true` exactly when
the live sequence of `a` is lexicographically less than the live sequence of `b` (the
first differing element decides, a proper initial segment is less); so the result is
the same on any two vectors with these live sequences, whatever their capacities and
dead slots. -/
theorem lt_lexicographic {α : Type} [Inhabited α] [LinearOrder α] (a b : SimpleVector α)
    (ha : Invariant a) (hb : Invariant b) :
    (lt a b = true ↔ List.Lex (fun x y : α => x < y) (live a) (live b)) ∧
      (∀ a2 b2 : SimpleVector α, Invariant a2 → Invariant b2 → live a2 = live a →
        live b2 = live b → lt a2 b2 = lt a b) := by
  refine ⟨lt_iff_lex a b ha hb, ?_⟩
  intro a2 b2 ha2 hb2 hla hlb
  have h1 := lt_iff_lex a b ha hb
  have h2 := lt_iff_lex a2 b2 ha2 hb2
  rw [hla, hlb] at h2
  cases hv : lt a b
  · cases hv2 : lt a2 b2
    · rfl
    · exact absurd (h1.2 (h2.1 hv2)) (by rw [hv]; decide)
  · exact h2.2 (h1.1 hv)

/-- Witness for C15: `{1, 2}` in a buffer of capacity 3 against `{1, 3}` in a buffer of
capacity 2. -/
theorem lt_lexicographic_witness :
    (lt (⟨2, 3, ⟨some [1, 2, 9]⟩⟩ : SimpleVector Nat) ⟨2, 2, ⟨some [1, 3]⟩⟩ = true ↔
        List.Lex (fun x y : Nat => x < y) [1, 2] [1, 3]) ∧
      (∀ a2 b2 : SimpleVector Nat, Invariant a2 → Invariant b2 → live a2 = [1, 2] →
        live b2 = [1, 3] →
        lt a2 b2 = lt (⟨2, 3, ⟨some [1, 2, 9]⟩⟩ : SimpleVector Nat) ⟨2, 2, ⟨some [1, 3]⟩⟩) :=
  lt_lexicographic ⟨2, 3, ⟨some [1, 2, 9]⟩⟩ ⟨2, 2, ⟨some [1, 3]⟩⟩
    ⟨by decide, rfl, by decide⟩ ⟨by decide, rfl, by decide⟩

/-- C16, evaluated on the code: with `a` empty and `b = {1}` both `a < b` and `a == b` are
`true`, so more than one of `a < b`, `a == b`, `a > b` holds; and with `a = {1, 2}` and
`b` the vector `{1, 2}` after `PopBack()`, `a == b` is `true` while `a <= b` is `false`.
Both come from `operator==` walking `lhs` only. -/
theorem comparisons_overlap_on_shorter_lhs :
    ofList (fun _ => true) [1] = .ok (⟨1, 1, ⟨some [1]⟩⟩ : SimpleVector Nat) ∧
      lt (empty : SimpleVector Nat) ⟨1, 1, ⟨some [1]⟩⟩ = true ∧
      eq (empty : SimpleVector Nat) ⟨1, 1, ⟨some [1]⟩⟩ = true ∧
      gt (empty : SimpleVector Nat) ⟨1, 1, ⟨some [1]⟩⟩ = false ∧
      PopBack (⟨2, 2, ⟨some [1, 2]⟩⟩ : SimpleVector Nat) = ⟨1, 2, ⟨some [1, 2]⟩⟩ ∧
      eq (⟨2, 2, ⟨some [1, 2]⟩⟩ : SimpleVector Nat) ⟨1, 2, ⟨some [1, 2]⟩⟩ = true ∧
      lt (⟨2, 2, ⟨some [1, 2]⟩⟩ : SimpleVector Nat) ⟨1, 2, ⟨some [1, 2]⟩⟩ = false ∧
      gt (⟨2, 2, ⟨some [1, 2]⟩⟩ : SimpleVector Nat) ⟨1, 2, ⟨some [1, 2]⟩⟩ = true ∧
      le (⟨2, 2, ⟨some [1, 2]⟩⟩ : SimpleVector Nat) ⟨1, 2, ⟨some [1, 2]⟩⟩ = false :=
  ⟨rfl, rfl, rfl, rfl, rfl, rfl, rfl, rfl, rfl⟩


/-- One step of the doubling policy, on the counters alone: `n` the size, `c` the
capacity, `R` the relocations so far. -/
theorem doubling_step (n c R : Nat)
    (h : (n = 0 ∧ c = 0 ∧ R = 0) ∨
      (1 ≤ n ∧ (∃ k, c = 2 ^ k) ∧ n ≤ c ∧ c < 2 * n ∧ R + 1 = c)) :
    (∃ k, (if n = c then grown c else c) = 2 ^ k) ∧ n + 1 ≤ (if n = c then grown c else c) ∧
      (if n = c then grown c else c) < 2 * (n + 1) ∧
      (R + if n = c then n - 0 else 0) + 1 = (if n = c then grown c else c) := by
  rcases h with ⟨h1, h2, h3⟩ | ⟨h1, ⟨k, hk⟩, h3, h4, h5⟩
  · subst h1; subst h2; subst h3
    refine ⟨⟨0, ?_⟩, ?_, ?_, ?_⟩ <;> simp [grown]
  · by_cases hfull : n = c
    · have hc : c ≠ 0 := by omega
      have hg : grown c = c * 2 := by unfold grown; rw [if_neg hc]
      rw [if_pos hfull, if_pos hfull, hg]
      refine ⟨⟨k + 1, ?_⟩, ?_, ?_, ?_⟩
      · rw [hk, Nat.pow_succ]
      · omega
      · omega
      · omega
    · rw [if_neg hfull, if_neg hfull]
      exact ⟨⟨k, hk⟩, by omega, by omega, by omega⟩

/-- Size, capacity and relocation count along a run of `PushBack` calls, every allocation
served, from a state that is empty with no buffer or follows the doubling policy. -/
theorem pushAll_doubling {α : Type} [Inhabited α] (alloc : Nat → Bool)
    (halloc : ∀ n, alloc n = true) (xs : List α) :
    ∀ (v : SimpleVector α) (R : Nat), Invariant v →
      ((v.size_ = 0 ∧ v.capacity_ = 0 ∧ R = 0) ∨
        (1 ≤ v.size_ ∧ (∃ k, v.capacity_ = 2 ^ k) ∧ v.size_ ≤ v.capacity_ ∧
          v.capacity_ < 2 * v.size_ ∧ R + 1 = v.capacity_)) →
      1 ≤ xs.length →
      (∃ k, (pushAll alloc v xs).state.capacity_ = 2 ^ k) ∧
        v.size_ + xs.length ≤ (pushAll alloc v xs).state.capacity_ ∧
        (pushAll alloc v xs).state.capacity_ < 2 * (v.size_ + xs.length) ∧
        R + pushAll_moves alloc v xs + 1 = (pushAll alloc v xs).state.capacity_ := by
  induction xs with
  | nil => intro v R _ _ h; exact absurd h (by simp)
  | cons x xs ih =>
    intro v R hv hG _
    obtain ⟨hret, hsize, _⟩ := PushBack_object_live alloc v x hv (fun _ => halloc _)
    have hcap := PushBack_capacity alloc v (ItemRef.object x) (fun _ => halloc _)
    have hinv := PushBack_invariant alloc v (ItemRef.object x) hv
    have hstep : pushAll alloc v (x :: xs) = pushAll alloc (PushBack alloc v (ItemRef.object x)).state xs := by
      show (PushBack alloc v (ItemRef.object x)).andThen _ = _
      rw [hret]
      rfl
    have hmoves : pushAll_moves alloc v (x :: xs) =
        PushBack_moves v + pushAll_moves alloc (PushBack alloc v (ItemRef.object x)).state xs := by
      show (match PushBack alloc v (ItemRef.object x) with
        | .returned _ s => PushBack_moves v + pushAll_moves alloc s xs
        | .thrown _ _ => 0) = _
      rw [hret]
      rfl
    obtain ⟨s1, s2, s3, s4⟩ := doubling_step v.size_ v.capacity_ R hG
    rw [← hcap] at s1 s2 s3 s4
    rw [hstep, hmoves]
    cases xs with
    | nil =>
      have e1 : (pushAll alloc (PushBack alloc v (ItemRef.object x)).state []).state =
          (PushBack alloc v (ItemRef.object x)).state := rfl
      have e2 : pushAll_moves alloc (PushBack alloc v (ItemRef.object x)).state [] = 0 := rfl
      have e3 : [x].length = 1 := rfl
      rw [e1, e2, e3]
      unfold PushBack_moves
      exact ⟨s1, by omega, by omega, by omega⟩
    | cons y ys =>
      have hG2 : ((PushBack alloc v (ItemRef.object x)).state.size_ = 0 ∧
            (PushBack alloc v (ItemRef.object x)).state.capacity_ = 0 ∧ R + PushBack_moves v = 0) ∨
          (1 ≤ (PushBack alloc v (ItemRef.object x)).state.size_ ∧
            (∃ k, (PushBack alloc v (ItemRef.object x)).state.capacity_ = 2 ^ k) ∧
            (PushBack alloc v (ItemRef.object x)).state.size_ ≤ (PushBack alloc v (ItemRef.object x)).state.capacity_ ∧
            (PushBack alloc v (ItemRef.object x)).state.capacity_ < 2 * (PushBack alloc v (ItemRef.object x)).state.size_ ∧
            R + PushBack_moves v + 1 = (PushBack alloc v (ItemRef.object x)).state.capacity_) := by
        right
        rw [hsize]
        unfold PushBack_moves
        exact ⟨by omega, s1, s2, s3, s4⟩
      obtain ⟨t1, t2, t3, t4⟩ := ih (PushBack alloc v (ItemRef.object x)).state (R + PushBack_moves v) hinv hG2
        (by simp)
      rw [hsize] at t2 t3
      simp only [List.length_cons] at t2 t3 ⊢
      exact ⟨t1, by omega, by omega, by omega⟩

/-- The capacity never goes down along a run of `PushBack` calls. -/
theorem pushAll_capacity_mono {α : Type} [Inhabited α] (alloc : Nat → Bool)
    (halloc : ∀ n, alloc n = true) (xs : List α) :
    ∀ v : SimpleVector α, Invariant v → v.capacity_ ≤ (pushAll alloc v xs).state.capacity_ := by
  induction xs with
  | nil => intro v _; exact Nat.le_refl _
  | cons x xs ih =>
    intro v hv
    obtain ⟨hret, _, _⟩ := PushBack_object_live alloc v x hv (fun _ => halloc _)
    have hcap := PushBack_capacity alloc v (ItemRef.object x) (fun _ => halloc _)
    have hinv := PushBack_invariant alloc v (ItemRef.object x) hv
    have hstep : pushAll alloc v (x :: xs) = pushAll alloc (PushBack alloc v (ItemRef.object x)).state xs := by
      show (PushBack alloc v (ItemRef.object x)).andThen _ = _
      rw [hret]
      rfl
    rw [hstep]
    refine Nat.le_trans ?_ (ih _ hinv)
    rw [hcap]
    split
    · exact Nat.le_of_lt (grown_gt _)
    · exact Nat.le_refl _

/-- A run of `PushBack` calls cut in two: the second part starts where the first ended. -/
theorem pushAll_append {α : Type} [Inhabited α] (alloc : Nat → Bool)
    (halloc : ∀ n, alloc n = true) (ys zs : List α) :
    ∀ v : SimpleVector α, Invariant v →
      pushAll alloc v (ys ++ zs) = pushAll alloc (pushAll alloc v ys).state zs := by
  induction ys with
  | nil => intro v _; rfl
  | cons y ys ih =>
    intro v hv
    obtain ⟨hret, _, _⟩ := PushBack_object_live alloc v y hv (fun _ => halloc _)
    have hinv := PushBack_invariant alloc v (ItemRef.object y) hv
    have hstep : ∀ l, pushAll alloc v (y :: l) = pushAll alloc (PushBack alloc v (ItemRef.object y)).state l := by
      intro l
      show (PushBack alloc v (ItemRef.object y)).andThen _ = _
      rw [hret]
      rfl
    rw [List.cons_append, hstep, hstep, ih _ hinv]


/-- A power of two below twice `n` is the smallest power of two that reaches `n`. -/
theorem pow_two_smallest (n c k : Nat) (hk : c = 2 ^ k) (h2 : c < 2 * n) (j : Nat)
    (hj : n ≤ 2 ^ j) : c ≤ 2 ^ j := by
  subst hk
  by_cases hkj : k ≤ j
  · exact Nat.pow_le_pow_right (by omega) hkj
  · have h3 : 2 ^ (j + 1) ≤ 2 ^ k := Nat.pow_le_pow_right (by omega) (by omega)
    rw [Nat.pow_succ] at h3
    omega

/-- C19. Over `n >= 1` successive `PushBack` calls from the empty vector, every allocation
served, the number of relocated elements (the sizes at the calls that grow, added up)
is less than `2 * n`, and the capacity after any part of the calls is at most the
capacity after all of them. -/
theorem pushAll_relocations_linear {α : Type} [Inhabited α] (alloc : Nat → Bool)
    (halloc : ∀ n, alloc n = true) (xs : List α) (hn : 1 ≤ xs.length) :
    pushAll_moves alloc empty xs < 2 * xs.length ∧
      (∀ ys zs : List α, ys ++ zs = xs →
        (pushAll alloc empty ys).state.capacity_ ≤ (pushAll alloc empty xs).state.capacity_) ∧
      (∀ (ys : List α) (y : ItemRef α),
        (pushAll alloc empty ys).state.capacity_ ≤
          (PushBack alloc (pushAll alloc empty ys).state y).state.capacity_) := by
  obtain ⟨_, _, h3, h4⟩ := pushAll_doubling alloc halloc xs empty 0 empty_invariant
    (Or.inl ⟨rfl, rfl, rfl⟩) hn
  have hz : (empty : SimpleVector α).size_ = 0 := rfl
  rw [hz] at h3
  refine ⟨by omega, ?_, ?_⟩
  · intro ys zs hsplit
    obtain ⟨_, hinv, _, _⟩ := pushAll_live alloc halloc ys empty empty_invariant
    rw [← hsplit, pushAll_append alloc halloc ys zs empty empty_invariant]
    exact pushAll_capacity_mono alloc halloc zs _ hinv
  · intro ys y
    rw [PushBack_capacity alloc _ y (fun _ => halloc _)]
    split
    · exact Nat.le_of_lt (grown_gt _)
    · exact Nat.le_refl _

/-- Witness for C19: five pushes relocate 7 elements, fewer than 10, and the capacity after
two of them is at most the capacity after all five. -/
theorem pushAll_relocations_linear_witness :
    pushAll_moves (fun _ => true) (empty : SimpleVector Nat) [1, 2, 3, 4, 5] < 2 * 5 ∧
      (pushAll (fun _ => true) (empty : SimpleVector Nat) [1, 2]).state.capacity_ ≤
        (pushAll (fun _ => true) (empty : SimpleVector Nat) [1, 2, 3, 4, 5]).state.capacity_ :=
  ⟨(pushAll_relocations_linear (fun _ => true) (fun _ => rfl) [1, 2, 3, 4, 5] (by decide)).1,
    (pushAll_relocations_linear (fun _ => true) (fun _ => rfl) [1, 2, 3, 4, 5] (by decide)).2.1
      [1, 2] [3, 4, 5] rfl⟩

/-- C20. After `n` `PushBack` calls on the default-constructed vector, every allocation
served, the capacity is 0 when `n == 0` and otherwise the smallest power of two that
is `>= n`; so `n <= capacity < 2 * n` for `n >= 1`. -/
theorem pushAll_capacity_power_of_two {α : Type} [Inhabited α] (alloc : Nat → Bool)
    (halloc : ∀ n, alloc n = true) (xs : List α) :
    (xs.length = 0 → GetCapacity (pushAll alloc empty xs).state = 0) ∧
      (1 ≤ xs.length →
        (∃ k, GetCapacity (pushAll alloc empty xs).state = 2 ^ k) ∧
        xs.length ≤ GetCapacity (pushAll alloc empty xs).state ∧
        GetCapacity (pushAll alloc empty xs).state < 2 * xs.length ∧
        ∀ j, xs.length ≤ 2 ^ j → GetCapacity (pushAll alloc empty xs).state ≤ 2 ^ j) := by
  constructor
  · intro h0
    have hnil : xs = [] := List.length_eq_zero.mp h0
    subst hnil
    rfl
  · intro hn
    obtain ⟨⟨k, hk⟩, h2, h3, _⟩ := pushAll_doubling alloc halloc xs empty 0 empty_invariant
      (Or.inl ⟨rfl, rfl, rfl⟩) hn
    have hz : (empty : SimpleVector α).size_ = 0 := rfl
    rw [hz] at h2 h3
    unfold GetCapacity
    refine ⟨⟨k, hk⟩, by omega, by omega, ?_⟩
    intro j hj
    exact pow_two_smallest xs.length _ k hk (by omega) j hj

/-- Witness for C20: no push leaves capacity 0, five pushes leave capacity 8. -/
theorem pushAll_capacity_power_of_two_witness :
    GetCapacity (pushAll (fun _ => true) (empty : SimpleVector Nat) []).state = 0 ∧
      ((∃ k, GetCapacity
          (pushAll (fun _ => true) (empty : SimpleVector Nat) [1, 2, 3, 4, 5]).state = 2 ^ k) ∧
        5 ≤ GetCapacity (pushAll (fun _ => true) (empty : SimpleVector Nat) [1, 2, 3, 4, 5]).state ∧
        GetCapacity (pushAll (fun _ => true) (empty : SimpleVector Nat) [1, 2, 3, 4, 5]).state
          < 2 * 5 ∧
        ∀ j, 5 ≤ 2 ^ j →
          GetCapacity (pushAll (fun _ => true) (empty : SimpleVector Nat) [1, 2, 3, 4, 5]).state
            ≤ 2 ^ j) :=
  ⟨(pushAll_capacity_power_of_two (fun _ => true) (fun _ => rfl) ([] : List Nat)).1 rfl,
    (pushAll_capacity_power_of_two (fun _ => true) (fun _ => rfl) [1, 2, 3, 4, 5]).2
      (by decide)⟩

end SimpleVector
